import Mathlib

/-!
Verification development for the BPX container library (bpx-rs).

The definitions below are shallow embeddings of the Rust sources:
machine integers become `Nat` (with an explicit `% 2^w` where the source
performs a narrowing cast or where wrap-around is reachable), byte
buffers become `List Nat`, fallible functions return `Except Error`.
Code of the repository that is not present under `src/` (the header
constants, the section back-ends, the hash helper, the header builders
and the value conversions) is modelled from the specification; each such
definition says so in its doc comment.
-/

namespace BpxRs

/-- Error cases, translated from `src/error.rs` (`enum Error`).  Payloads
are kept where a claim inspects them; string payloads are modelled as
byte lists. -/
inductive Error where
  | checksum (expected actual : Nat)
  | io
  | typeError
  | propCountExceeded (count : Nat)
  | missingProp (name : List Nat)
  | truncation (tag : List Nat)
  | corruption
  | utf8 (tag : List Nat)
  | unsupported
  | capacity (size : Nat)
  | deflateErr
  | inflateErr
  | other
  deriving DecidableEq, Repr

/-- Modelled from the spec: `header.rs` is absent from `src/`.  The flags
byte has one bit per recognized flag (§6 of the spec); only distinctness
of the four bits matters to the code under verification. -/
def FLAG_COMPRESS_ZLIB : Nat := 1

/-- Modelled from the spec: compression-XZ bit of the flags byte. -/
def FLAG_COMPRESS_XZ : Nat := 2

/-- Modelled from the spec: CRC32-checksum bit of the flags byte. -/
def FLAG_CHECK_CRC32 : Nat := 4

/-- Modelled from the spec: weak-checksum bit of the flags byte. -/
def FLAG_CHECK_WEAK : Nat := 8

/-- Modelled from the spec: `header.rs` is absent from `src/`.  Size in
bytes of the main header, the sum of the field widths listed in §3 of
the spec (3 + 1 + 4 + 8 + 4 + 4 + 16). -/
def SIZE_MAIN_HEADER : Nat := 40

/-- Modelled from the spec: size in bytes of one section header, the sum
of the field widths listed in §3 (8 + 4 + 4 + 4 + 1 + 1). -/
def SIZE_SECTION_HEADER : Nat := 22

/-- Modelled from the spec: the section-header record (`SectionHeader`
in the absent `header.rs`); field names follow their uses in
`src/encoder.rs`. -/
structure SectionHeader where
  pointer : Nat
  size : Nat
  csize : Nat
  chksum : Nat
  btype : Nat
  flags : Nat
  deriving DecidableEq, Repr

/-- Modelled from the spec: the main-header record (`MainHeader` in the
absent `header.rs`); field names follow their uses in `src/encoder.rs`. -/
structure MainHeader where
  btype : Nat
  version : Nat
  file_size : Nat
  section_num : Nat
  chksum : Nat
  deriving DecidableEq, Repr

/-- Translation of `get_flags` (`src/encoder.rs`, lines 279-293): derive
the effective flags stored for a section from the requested header flags
and the current payload size. -/
def get_flags (header : SectionHeader) (size : Nat) : Nat :=
  let flags : Nat := 0
  let flags :=
    if header.flags &&& FLAG_CHECK_WEAK != 0 then flags ||| FLAG_CHECK_WEAK
    else if header.flags &&& FLAG_CHECK_CRC32 != 0 then flags ||| FLAG_CHECK_CRC32
    else flags
  let flags :=
    if header.flags &&& FLAG_COMPRESS_XZ != 0 && decide (header.csize < size) then
      flags ||| FLAG_COMPRESS_XZ
    else if header.flags &&& FLAG_COMPRESS_ZLIB != 0 && decide (header.csize < size) then
      flags ||| FLAG_COMPRESS_ZLIB
    else flags
  flags

/-- C1: the effective flags computed at finalize keep the weak-checksum
bit exactly when requested, keep the CRC32 bit exactly when requested
and weak is not (weak takes precedence), keep the XZ bit exactly when
requested and the payload size strictly exceeds the header's `csize`
field, and keep the zlib bit exactly when requested, XZ is not
requested, and the size exceeds `csize` (XZ takes precedence); so no
compression bit survives unless `size > csize`. -/
theorem get_flags_spec (header : SectionHeader) (size : Nat) :
    (get_flags header size &&& FLAG_CHECK_WEAK ≠ 0 ↔
      header.flags &&& FLAG_CHECK_WEAK ≠ 0) ∧
    (get_flags header size &&& FLAG_CHECK_CRC32 ≠ 0 ↔
      (header.flags &&& FLAG_CHECK_CRC32 ≠ 0 ∧ header.flags &&& FLAG_CHECK_WEAK = 0)) ∧
    (get_flags header size &&& FLAG_COMPRESS_XZ ≠ 0 ↔
      (header.flags &&& FLAG_COMPRESS_XZ ≠ 0 ∧ header.csize < size)) ∧
    (get_flags header size &&& FLAG_COMPRESS_ZLIB ≠ 0 ↔
      (header.flags &&& FLAG_COMPRESS_ZLIB ≠ 0 ∧ header.flags &&& FLAG_COMPRESS_XZ = 0 ∧
        header.csize < size)) := by
  unfold get_flags
  rcases lt_or_ge header.csize size with hs | hs
  · simp only [decide_eq_true hs, Bool.and_true]
    by_cases hw : header.flags &&& FLAG_CHECK_WEAK = 0 <;>
      by_cases hc : header.flags &&& FLAG_CHECK_CRC32 = 0 <;>
        by_cases hx : header.flags &&& FLAG_COMPRESS_XZ = 0 <;>
          by_cases hz : header.flags &&& FLAG_COMPRESS_ZLIB = 0 <;>
            simp_all [bne_iff_ne] <;> decide
  · simp only [decide_eq_false (Nat.not_lt.mpr hs), Bool.and_false, if_false]
    by_cases hw : header.flags &&& FLAG_CHECK_WEAK = 0 <;>
      by_cases hc : header.flags &&& FLAG_CHECK_CRC32 = 0 <;>
        by_cases hx : header.flags &&& FLAG_COMPRESS_XZ = 0 <;>
          by_cases hz : header.flags &&& FLAG_COMPRESS_ZLIB = 0 <;>
            simp_all [bne_iff_ne, Nat.not_lt.mpr hs] <;> decide

/-! ## Container writer (`src/encoder.rs`) -/

/-- Value of `u32::MAX`, the capacity bound checked in `write_sections`. -/
def U32_MAX : Nat := 2 ^ 32 - 1

/-- Modelled from the spec: `weakchksum.rs` is absent from `src/`.  The
weak checksum is the wrapping 32-bit arithmetic sum of all bytes (§4.1). -/
def weak_checksum (bs : List Nat) : Nat := bs.foldl (fun h b => (h + b) % 2 ^ 32) 0

/-- Modelling boundary for code that is external or absent from `src/`:
`xz`/`zlib` stand for the streaming compressors (LZMA is called through
FFI, `zlib.rs` is absent), `crc32` for the CRC-32 routine
(`crc32chksum.rs` is absent), and `header_sum`/`main_sum` for the
byte-sum `get_checksum` methods of the absent `header.rs`.  The encoder
below is parametric in these, as the claims under proof do not depend on
their values. -/
structure Codecs where
  xz : List Nat → List Nat
  zlib : List Nat → List Nat
  crc32 : List Nat → Nat
  header_sum : SectionHeader → Nat
  main_sum : MainHeader → Nat

/-- Translation of `write_section_checked` (`src/encoder.rs`, lines
337-351): the bytes that reach the staging file are the XZ output, the
zlib output, or the raw payload, tried in that order of the flag bits. -/
def write_section_bytes (c : Codecs) (flags : Nat) (payload : List Nat) : List Nat :=
  if flags &&& FLAG_COMPRESS_XZ != 0 then c.xz payload
  else if flags &&& FLAG_COMPRESS_ZLIB != 0 then c.zlib payload
  else payload

/-- Translation of `write_section` (`src/encoder.rs`, lines 353-368):
returns `(csize, chksum)`.  The checksum tap always receives the
uncompressed payload; with no checksum bit a weak tap is still run but
its value is discarded and 0 is returned. -/
def write_section (c : Codecs) (flags : Nat) (payload : List Nat) : Nat × Nat :=
  if flags &&& FLAG_CHECK_CRC32 != 0 then
    ((write_section_bytes c flags payload).length, c.crc32 payload)
  else if flags &&& FLAG_CHECK_WEAK != 0 then
    ((write_section_bytes c flags payload).length, weak_checksum payload)
  else
    let _discarded := weak_checksum payload
    ((write_section_bytes c flags payload).length, 0)

/-- Translation of the loop body of `Encoder::write_sections`
(`src/encoder.rs`, lines 145-174).  A section is the pair of its
requested header and its payload bytes; the result carries the finalized
headers, the accumulated section-header checksum (wrapping u32, as in
the source) and `all_sections_size`.  The `csize` field stores the
computed size through the source's `as u32` cast, hence the `% 2 ^ 32`. -/
def write_sections_loop (c : Codecs) (secs : List (SectionHeader × List Nat)) (ptr : Nat) :
    Except Error (List SectionHeader × Nat × Nat) :=
  match secs with
  | [] => .ok ([], 0, 0)
  | (h, d) :: rest =>
    if U32_MAX < d.length then .error (.capacity d.length)
    else
      let flags := get_flags h d.length
      let cs := write_section c flags d
      let h' : SectionHeader :=
        { pointer := ptr, size := d.length, csize := cs.1 % 2 ^ 32, chksum := cs.2,
          btype := h.btype, flags := flags }
      match write_sections_loop c rest (ptr + cs.1) with
      | .error e => .error e
      | .ok (hs, chksum_sht, total) =>
          .ok (h' :: hs, (chksum_sht + c.header_sum h') % 2 ^ 32, total + cs.1)

/-- Translation of `Encoder::write_sections`: the payload region starts
at `SIZE_MAIN_HEADER + section_count * SIZE_SECTION_HEADER`. -/
def write_sections (c : Codecs) (secs : List (SectionHeader × List Nat)) :
    Except Error (List SectionHeader × Nat × Nat) :=
  write_sections_loop c secs (SIZE_MAIN_HEADER + secs.length * SIZE_SECTION_HEADER)

/-- Translation of `Encoder::save` (`src/encoder.rs`, lines 210-223):
fills in `file_size` and `chksum` of the main header and emits the
headers followed by the staged payloads. -/
def save (c : Codecs) (mh : MainHeader) (secs : List (SectionHeader × List Nat)) :
    Except Error (MainHeader × List SectionHeader) :=
  match write_sections c secs with
  | .error e => .error e
  | .ok (hdrs, chksum_sht, all_sections_size) =>
    let mh1 := { mh with
      file_size := all_sections_size + secs.length * SIZE_SECTION_HEADER + SIZE_MAIN_HEADER }
    let mh2 := { mh1 with chksum := (chksum_sht + c.main_sum mh1) % 2 ^ 32 }
    .ok (mh2, hdrs)

/-- The `csize` component returned by `write_section` is the length of
whatever byte stream was staged. -/
theorem write_section_fst (c : Codecs) (flags : Nat) (payload : List Nat) :
    (write_section c flags payload).1 = (write_section_bytes c flags payload).length := by
  unfold write_section
  split_ifs <;> rfl

/-- Layout invariant of the section-writing loop: when it succeeds the
headers come out in declaration order, `all_sections_size` is the sum of
the stored `csize` fields, every stored pointer is the starting offset
plus the `csize` of the preceding sections, and each header stores the
checksum and effective flags computed for its section. -/
theorem write_sections_loop_spec (c : Codecs) :
    ∀ (secs : List (SectionHeader × List Nat)) (ptr : Nat)
      (hxz : ∀ p ∈ secs, (c.xz p.2).length ≤ U32_MAX)
      (hzl : ∀ p ∈ secs, (c.zlib p.2).length ≤ U32_MAX)
      (hdrs : List SectionHeader) (chksum_sht total : Nat),
      write_sections_loop c secs ptr = .ok (hdrs, chksum_sht, total) →
      hdrs.length = secs.length ∧
      total = (hdrs.map SectionHeader.csize).sum ∧
      (∀ i (hi : i < hdrs.length) (hi' : i < secs.length),
        (hdrs.get ⟨i, hi⟩).pointer = ptr + ((hdrs.take i).map SectionHeader.csize).sum ∧
        (hdrs.get ⟨i, hi⟩).chksum =
          (write_section c (get_flags (secs.get ⟨i, hi'⟩).1 (secs.get ⟨i, hi'⟩).2.length)
            (secs.get ⟨i, hi'⟩).2).2 ∧
        (hdrs.get ⟨i, hi⟩).flags = get_flags (secs.get ⟨i, hi'⟩).1 (secs.get ⟨i, hi'⟩).2.length)
  | [], ptr, _hxz, _hzl, hdrs, chksum_sht, total, h => by
      simp only [write_sections_loop] at h
      injection h with hv
      injection hv with h1 h23
      injection h23 with h2 h3
      subst h1; subst h2; subst h3
      refine ⟨rfl, rfl, ?_⟩
      intro i hi hi'
      exact absurd hi (by simp)
  | (hd, d) :: rest, ptr, hxz, hzl, hdrs, chksum_sht, total, h => by
      simp only [write_sections_loop] at h
      by_cases hcap : U32_MAX < d.length
      · simp [hcap] at h
      · simp only [if_neg hcap] at h
        revert h
        cases hrec : write_sections_loop c rest
            (ptr + (write_section c (get_flags hd d.length) d).1) with
        | error e => intro h; cases h
        | ok v =>
          obtain ⟨hs, cks, tot⟩ := v
          intro h
          injection h with hv
          injection hv with h1 h23
          injection h23 with h2 h3
          have ih := write_sections_loop_spec c rest
            (ptr + (write_section c (get_flags hd d.length) d).1)
            (fun p hp => hxz p (List.mem_cons_of_mem _ hp))
            (fun p hp => hzl p (List.mem_cons_of_mem _ hp))
            hs cks tot hrec
          obtain ⟨ihlen, ihtot, ihget⟩ := ih
          -- the computed csize fits in u32, so the stored field equals it
          have hfit : (write_section c (get_flags hd d.length) d).1 ≤ U32_MAX := by
            rw [write_section_fst]
            unfold write_section_bytes
            split_ifs
            · exact hxz (hd, d) (List.mem_cons_self _ _)
            · exact hzl (hd, d) (List.mem_cons_self _ _)
            · exact Nat.not_lt.mp hcap
          have hmod : (write_section c (get_flags hd d.length) d).1 % 2 ^ 32 =
              (write_section c (get_flags hd d.length) d).1 :=
            Nat.mod_eq_of_lt (lt_of_le_of_lt hfit (by norm_num [U32_MAX]))
          subst h1
          refine ⟨by simp [ihlen], ?_, ?_⟩
          · simp only [List.map_cons, List.sum_cons, ← h3, ihtot, hmod]
            omega
          · intro i hi hi'
            match i with
            | 0 => simp [hmod]
            | Nat.succ j =>
              have hj : j < hs.length := by simpa using hi
              have hj' : j < rest.length := by simpa using hi'
              obtain ⟨p1, p2, p3⟩ := ihget j hj hj'
              refine ⟨?_, ?_, ?_⟩
              · simp only [List.get_cons_succ, List.take_succ_cons, List.map_cons,
                  List.sum_cons, p1, hmod]
                omega
              · simpa using p2
              · simpa using p3

/-- Content invariant of the section-writing loop, free of any bound on
the codec outputs: each finalized header stores the checksum computed by
`write_section` for its own section. -/
theorem write_sections_loop_content (c : Codecs) :
    ∀ (secs : List (SectionHeader × List Nat)) (ptr : Nat)
      (hdrs : List SectionHeader) (chksum_sht total : Nat),
      write_sections_loop c secs ptr = .ok (hdrs, chksum_sht, total) →
      hdrs.length = secs.length ∧
      (∀ i (hi : i < hdrs.length) (hi' : i < secs.length),
        (hdrs.get ⟨i, hi⟩).chksum =
          (write_section c (get_flags (secs.get ⟨i, hi'⟩).1 (secs.get ⟨i, hi'⟩).2.length)
            (secs.get ⟨i, hi'⟩).2).2)
  | [], ptr, hdrs, chksum_sht, total, h => by
      simp only [write_sections_loop] at h
      injection h with hv
      injection hv with h1 h23
      subst h1
      exact ⟨rfl, fun i hi hi' => absurd hi (by simp)⟩
  | (hd, d) :: rest, ptr, hdrs, chksum_sht, total, h => by
      simp only [write_sections_loop] at h
      by_cases hcap : U32_MAX < d.length
      · simp [hcap] at h
      · simp only [if_neg hcap] at h
        revert h
        cases hrec : write_sections_loop c rest
            (ptr + (write_section c (get_flags hd d.length) d).1) with
        | error e => intro h; cases h
        | ok v =>
          obtain ⟨hs, cks, tot⟩ := v
          intro h
          injection h with hv
          injection hv with h1 h23
          have ih := write_sections_loop_content c rest
            (ptr + (write_section c (get_flags hd d.length) d).1) hs cks tot hrec
          obtain ⟨ihlen, ihget⟩ := ih
          subst h1
          refine ⟨by simp [ihlen], ?_⟩
          intro i hi hi'
          match i with
          | 0 => rfl
          | Nat.succ j =>
            have hj : j < hs.length := by simpa using hi
            have hj' : j < rest.length := by simpa using hi'
            simpa using ihget j hj hj'

/-- With neither checksum bit among the requested flags, the pipeline
computes (and discards) a weak checksum and stores 0. -/
theorem write_section_chksum_zero (c : Codecs) (h : SectionHeader) (n : Nat) (d : List Nat)
    (hw : h.flags &&& FLAG_CHECK_WEAK = 0) (hc : h.flags &&& FLAG_CHECK_CRC32 = 0) :
    (write_section c (get_flags h n) d).2 = 0 := by
  unfold get_flags
  simp only [hw, hc]
  split_ifs <;> first | rfl | simp_all

/-- C2: after `save` succeeds on an encoder holding `n` sections, the
main header stores `file_size = SIZE_MAIN_HEADER + n * SIZE_SECTION_HEADER
+ Σ csize_i` over the stored `csize` fields, and section `i` stores
`pointer = SIZE_MAIN_HEADER + n * SIZE_SECTION_HEADER + Σ_{j < i} csize_j`
in declaration order, so payloads are contiguous, non-overlapping and
ordered as their headers.  The hypotheses say that the external
compressors emit at most `u32::MAX` bytes for the given payloads, which
rules out the narrowing `as u32` cast losing bits. -/
theorem save_layout (c : Codecs) (mh : MainHeader) (secs : List (SectionHeader × List Nat))
    (hxz : ∀ p ∈ secs, (c.xz p.2).length ≤ U32_MAX)
    (hzl : ∀ p ∈ secs, (c.zlib p.2).length ≤ U32_MAX)
    (mh2 : MainHeader) (hdrs : List SectionHeader)
    (hsave : save c mh secs = .ok (mh2, hdrs)) :
    hdrs.length = secs.length ∧
    mh2.file_size = SIZE_MAIN_HEADER + secs.length * SIZE_SECTION_HEADER +
      (hdrs.map SectionHeader.csize).sum ∧
    ∀ i (hi : i < hdrs.length),
      (hdrs.get ⟨i, hi⟩).pointer = SIZE_MAIN_HEADER + secs.length * SIZE_SECTION_HEADER +
        ((hdrs.take i).map SectionHeader.csize).sum := by
  unfold save write_sections at hsave
  revert hsave
  cases hws : write_sections_loop c secs (SIZE_MAIN_HEADER + secs.length * SIZE_SECTION_HEADER) with
  | error e => intro hsave; cases hsave
  | ok v =>
    obtain ⟨hs, cks, tot⟩ := v
    intro hsave
    injection hsave with hv
    injection hv with h1 h2
    obtain ⟨hlen, htot, hget⟩ :=
      write_sections_loop_spec c secs (SIZE_MAIN_HEADER + secs.length * SIZE_SECTION_HEADER)
        hxz hzl hs cks tot hws
    subst h2
    refine ⟨hlen, ?_, ?_⟩
    · have hfs := congrArg MainHeader.file_size h1
      simp only at hfs
      rw [← hfs, htot]
      omega
    · intro i hi
      have hi' : i < secs.length := hlen ▸ hi
      have := (hget i hi hi').1
      omega

/-- Trivial instantiation of the codec boundary, used by witnesses. -/
def trivialCodecs : Codecs where
  xz := fun _ => []
  zlib := fun _ => []
  crc32 := fun _ => 0
  header_sum := fun _ => 0
  main_sum := fun _ => 0

/-- Witness for `save_layout`: a one-section encoder saved with trivial
codecs yields `file_size = 62 = 40 + 22 + 0`. -/
theorem save_layout_witness :
    (⟨0, 0, 62, 0, 0⟩ : MainHeader).file_size =
      SIZE_MAIN_HEADER + [((⟨0, 0, 0, 0, 7, 0⟩ : SectionHeader), ([] : List Nat))].length *
        SIZE_SECTION_HEADER +
      (([⟨62, 0, 0, 0, 7, 0⟩] : List SectionHeader).map SectionHeader.csize).sum :=
  (save_layout trivialCodecs ⟨0, 0, 0, 0, 0⟩ [(⟨0, 0, 0, 0, 7, 0⟩, [])]
    (by intro p hp; simp [trivialCodecs, U32_MAX])
    (by intro p hp; simp [trivialCodecs, U32_MAX])
    ⟨0, 0, 62, 0, 0⟩ [⟨62, 0, 0, 0, 7, 0⟩] rfl).2.1

/-- C8: a section whose requested flags contain neither `CHECK_WEAK` nor
`CHECK_CRC32` ends up with `chksum = 0` in its stored header after
finalize (`write_section` runs a weak tap and discards it). -/
theorem save_requested_no_checksum (c : Codecs) (mh : MainHeader)
    (secs : List (SectionHeader × List Nat)) (mh2 : MainHeader) (hdrs : List SectionHeader)
    (hsave : save c mh secs = .ok (mh2, hdrs)) (i : Nat) (hi : i < secs.length)
    (hflags : (secs.get ⟨i, hi⟩).1.flags &&& (FLAG_CHECK_WEAK ||| FLAG_CHECK_CRC32) = 0) :
    ∃ hih : i < hdrs.length, (hdrs.get ⟨i, hih⟩).chksum = 0 := by
  unfold save write_sections at hsave
  revert hsave
  cases hws : write_sections_loop c secs (SIZE_MAIN_HEADER + secs.length * SIZE_SECTION_HEADER) with
  | error e => intro hsave; cases hsave
  | ok v =>
    obtain ⟨hs, cks, tot⟩ := v
    intro hsave
    injection hsave with hv
    injection hv with h1 h2
    obtain ⟨hlen, hget⟩ := write_sections_loop_content c secs
      (SIZE_MAIN_HEADER + secs.length * SIZE_SECTION_HEADER) hs cks tot hws
    subst h2
    have hih : i < hs.length := by omega
    refine ⟨hih, ?_⟩
    rw [hget i hih hi]
    set x := (secs.get ⟨i, hi⟩).1.flags with hx
    have hw : x &&& FLAG_CHECK_WEAK = 0 := by
      calc x &&& FLAG_CHECK_WEAK
          = x &&& ((FLAG_CHECK_WEAK ||| FLAG_CHECK_CRC32) &&& FLAG_CHECK_WEAK) := rfl
        _ = (x &&& (FLAG_CHECK_WEAK ||| FLAG_CHECK_CRC32)) &&& FLAG_CHECK_WEAK :=
          (Nat.and_assoc x _ _).symm
        _ = 0 := by rw [hflags]; rfl
    have hc : x &&& FLAG_CHECK_CRC32 = 0 := by
      calc x &&& FLAG_CHECK_CRC32
          = x &&& ((FLAG_CHECK_WEAK ||| FLAG_CHECK_CRC32) &&& FLAG_CHECK_CRC32) := rfl
        _ = (x &&& (FLAG_CHECK_WEAK ||| FLAG_CHECK_CRC32)) &&& FLAG_CHECK_CRC32 :=
          (Nat.and_assoc x _ _).symm
        _ = 0 := by rw [hflags]; rfl
    exact write_section_chksum_zero c _ _ _ hw hc

/-- Witness for `save_requested_no_checksum`: a section requesting both
compression bits but no checksum bit stores `chksum = 0`. -/
theorem save_requested_no_checksum_witness :
    ∃ hih : 0 < ([⟨62, 2, 0, 0, 7, 2⟩] : List SectionHeader).length,
      (([⟨62, 2, 0, 0, 7, 2⟩] : List SectionHeader).get ⟨0, hih⟩).chksum = 0 :=
  save_requested_no_checksum trivialCodecs ⟨0, 0, 0, 0, 0⟩ [(⟨0, 0, 0, 0, 7, 3⟩, [5, 6])]
    ⟨0, 0, 62, 0, 0⟩ [⟨62, 2, 0, 0, 7, 2⟩] rfl 0 (by decide) (by decide)

/-! ## Structured data (BPXSD, `src/sd/encoder.rs`) -/

/-- Little-endian byte encoding of `v` on `width` bytes. -/
def le_bytes (width : Nat) (v : Nat) : List Nat :=
  (List.range width).map (fun i => v / 256 ^ i % 256)

/-- Translation of the BPXSD value tree (`Value` in the absent
`sd/value.rs`, wire shapes per `src/sd/encoder.rs` and §3/§4.6 of the
spec).  Floats are represented by their IEEE bit patterns, which is
what the encoder serializes; strings by their UTF-8 bytes. -/
inductive Value where
  | null
  | bool (b : Bool)
  | uint8 (v : Nat)
  | uint16 (v : Nat)
  | uint32 (v : Nat)
  | uint64 (v : Nat)
  | int8 (v : Int)
  | int16 (v : Int)
  | int32 (v : Int)
  | int64 (v : Int)
  | float (bits : Nat)
  | double (bits : Nat)
  | string (s : List Nat)
  | array (a : List Value)
  | object (o : List (Nat × Value))

/-- Translation of `get_value_type_code` (`src/sd/encoder.rs`, lines
39-58). -/
def get_value_type_code : Value → Nat
  | .null => 0x0
  | .bool _ => 0x1
  | .uint8 _ => 0x2
  | .uint16 _ => 0x3
  | .uint32 _ => 0x4
  | .uint64 _ => 0x5
  | .int8 _ => 0x6
  | .int16 _ => 0x7
  | .int32 _ => 0x8
  | .int64 _ => 0x9
  | .float _ => 0xA
  | .double _ => 0xB
  | .string _ => 0xC
  | .array _ => 0xD
  | .object _ => 0xE

mutual

/-- Translation of `write_value` (`src/sd/encoder.rs`, lines 60-123):
the payload bytes of one value, without its type code. -/
def write_value : Value → Except Error (List Nat)
  | .null => .ok []
  | .bool b => .ok [if b then 1 else 0]
  | .uint8 v => .ok [v % 256]
  | .uint16 v => .ok (le_bytes 2 v)
  | .uint32 v => .ok (le_bytes 4 v)
  | .uint64 v => .ok (le_bytes 8 v)
  | .int8 v => .ok [(v % 2 ^ 8).toNat]
  | .int16 v => .ok (le_bytes 2 (v % 2 ^ 16).toNat)
  | .int32 v => .ok (le_bytes 4 (v % 2 ^ 32).toNat)
  | .int64 v => .ok (le_bytes 8 (v % 2 ^ 64).toNat)
  | .float bits => .ok (le_bytes 4 bits)
  | .double bits => .ok (le_bytes 8 bits)
  | .string s => .ok (s ++ [0x0])
  | .array arr => write_array arr
  | .object obj => write_object obj

/-- Translation of `write_object` (`src/sd/encoder.rs`, lines 125-143):
one count byte then the entries.  An `Object` is its key/value entries
in iteration order (the source iterates a hash map). -/
def write_object (obj : List (Nat × Value)) : Except Error (List Nat) := do
  let count := obj.length
  if 255 < count then
    .error (.propCountExceeded count)
  else
    let body ← write_object_items obj
    .ok (count :: body)

/-- Body of the entry loop of `write_object`: 8-byte little-endian
name hash, type-code byte, then the value payload, for each entry. -/
def write_object_items : List (Nat × Value) → Except Error (List Nat)
  | [] => .ok []
  | (hash, val) :: rest => do
    let bs ← write_value val
    let rs ← write_object_items rest
    .ok (le_bytes 8 hash ++ [get_value_type_code val] ++ bs ++ rs)

/-- Translation of `write_array` (`src/sd/encoder.rs`, lines 145-160):
one count byte then the entries. -/
def write_array (arr : List Value) : Except Error (List Nat) := do
  let count := arr.length
  if 255 < count then
    .error (.propCountExceeded count)
  else
    let body ← write_array_items arr
    .ok (count :: body)

/-- Body of the entry loop of `write_array`: type-code byte then the
value payload, for each entry. -/
def write_array_items : List Value → Except Error (List Nat)
  | [] => .ok []
  | val :: rest => do
    let bs ← write_value val
    let rs ← write_array_items rest
    .ok (get_value_type_code val :: bs ++ rs)

end

/-- Translation of `write_structured_data` (`src/sd/encoder.rs`, lines
162-167): all bytes are produced first and only then written to the
destination, so a failed encode emits nothing. -/
def write_structured_data (dest : List Nat) (obj : List (Nat × Value)) :
    Except Error (List Nat) := do
  let bytes ← write_object obj
  .ok (dest ++ bytes)

mutual

/-- Specification-side predicate: every object and array in the tree
holds at most 255 entries. -/
def countsOkV : Value → Bool
  | .array a => decide (a.length ≤ 255) && countsOkL a
  | .object o => decide (o.length ≤ 255) && countsOkP o
  | _ => true

def countsOkL : List Value → Bool
  | [] => true
  | v :: rest => countsOkV v && countsOkL rest

def countsOkP : List (Nat × Value) → Bool
  | [] => true
  | (_, v) :: rest => countsOkV v && countsOkP rest

end

mutual

/-- Specification-side list of the entry counts of every object and
array node of the tree. -/
def nodeCountsV : Value → List Nat
  | .array a => a.length :: nodeCountsL a
  | .object o => o.length :: nodeCountsP o
  | _ => []

def nodeCountsL : List Value → List Nat
  | [] => []
  | v :: rest => nodeCountsV v ++ nodeCountsL rest

def nodeCountsP : List (Nat × Value) → List Nat
  | [] => []
  | (_, v) :: rest => nodeCountsV v ++ nodeCountsP rest

end


mutual

/-- Success and failure of `write_value` are decided exactly by the
count bounds; on failure the reported count is that of a node of the
tree and exceeds 255. -/
theorem wv_spec (v : Value) :
    (countsOkV v = true → ∃ bs, write_value v = .ok bs) ∧
    (countsOkV v = false → ∃ c, 255 < c ∧ c ∈ nodeCountsV v ∧
      write_value v = .error (.propCountExceeded c)) := by
  cases v with
  | array arr =>
    have h := wa_spec arr
    constructor
    · intro hok
      simp only [countsOkV, Bool.and_eq_true, decide_eq_true_eq] at hok
      obtain ⟨bs, hbs⟩ := h.1 hok.2
      refine ⟨arr.length :: bs, ?_⟩
      simp only [write_value, write_array, hbs]
      rw [if_neg (Nat.not_lt.mpr hok.1)]
      rfl
    · intro hbad
      simp only [countsOkV, Bool.and_eq_false_iff, decide_eq_false_iff_not,
        Nat.not_le] at hbad
      by_cases hlen : 255 < arr.length
      · refine ⟨arr.length, hlen, ?_, ?_⟩
        · simp [nodeCountsV]
        · simp only [write_value, write_array]
          rw [if_pos hlen]
      · have hco : countsOkL arr = false := by
          rcases hbad with h1 | h2
          · exact absurd h1 hlen
          · exact h2
        obtain ⟨c, hc, hmem, herr⟩ := h.2 hco
        refine ⟨c, hc, ?_, ?_⟩
        · simp [nodeCountsV, hmem]
        · simp only [write_value, write_array, herr]
          rw [if_neg hlen]
          rfl
  | object obj =>
    have h := wo_spec obj
    constructor
    · intro hok
      simp only [countsOkV, Bool.and_eq_true, decide_eq_true_eq] at hok
      obtain ⟨bs, hbs⟩ := h.1 hok.2
      refine ⟨obj.length :: bs, ?_⟩
      simp only [write_value, write_object, hbs]
      rw [if_neg (Nat.not_lt.mpr hok.1)]
      rfl
    · intro hbad
      simp only [countsOkV, Bool.and_eq_false_iff, decide_eq_false_iff_not,
        Nat.not_le] at hbad
      by_cases hlen : 255 < obj.length
      · refine ⟨obj.length, hlen, ?_, ?_⟩
        · simp [nodeCountsV]
        · simp only [write_value, write_object]
          rw [if_pos hlen]
      · have hco : countsOkP obj = false := by
          rcases hbad with h1 | h2
          · exact absurd h1 hlen
          · exact h2
        obtain ⟨c, hc, hmem, herr⟩ := h.2 hco
        refine ⟨c, hc, ?_, ?_⟩
        · simp [nodeCountsV, hmem]
        · simp only [write_value, write_object, herr]
          rw [if_neg hlen]
          rfl
  | null => exact ⟨fun _ => ⟨_, by rw [write_value]⟩, fun hbad => by simp [countsOkV] at hbad⟩
  | bool b => exact ⟨fun _ => ⟨_, by rw [write_value]⟩, fun hbad => by simp [countsOkV] at hbad⟩
  | uint8 v => exact ⟨fun _ => ⟨_, by rw [write_value]⟩, fun hbad => by simp [countsOkV] at hbad⟩
  | uint16 v => exact ⟨fun _ => ⟨_, by rw [write_value]⟩, fun hbad => by simp [countsOkV] at hbad⟩
  | uint32 v => exact ⟨fun _ => ⟨_, by rw [write_value]⟩, fun hbad => by simp [countsOkV] at hbad⟩
  | uint64 v => exact ⟨fun _ => ⟨_, by rw [write_value]⟩, fun hbad => by simp [countsOkV] at hbad⟩
  | int8 v => exact ⟨fun _ => ⟨_, by rw [write_value]⟩, fun hbad => by simp [countsOkV] at hbad⟩
  | int16 v => exact ⟨fun _ => ⟨_, by rw [write_value]⟩, fun hbad => by simp [countsOkV] at hbad⟩
  | int32 v => exact ⟨fun _ => ⟨_, by rw [write_value]⟩, fun hbad => by simp [countsOkV] at hbad⟩
  | int64 v => exact ⟨fun _ => ⟨_, by rw [write_value]⟩, fun hbad => by simp [countsOkV] at hbad⟩
  | float bits => exact ⟨fun _ => ⟨_, by rw [write_value]⟩, fun hbad => by simp [countsOkV] at hbad⟩
  | double bits => exact ⟨fun _ => ⟨_, by rw [write_value]⟩, fun hbad => by simp [countsOkV] at hbad⟩
  | string s => exact ⟨fun _ => ⟨_, by rw [write_value]⟩, fun hbad => by simp [countsOkV] at hbad⟩

theorem wa_spec (l : List Value) :
    (countsOkL l = true → ∃ bs, write_array_items l = .ok bs) ∧
    (countsOkL l = false → ∃ c, 255 < c ∧ c ∈ nodeCountsL l ∧
      write_array_items l = .error (.propCountExceeded c)) := by
  cases l with
  | nil =>
    refine ⟨fun _ => ⟨[], by rw [write_array_items]⟩, fun hbad => ?_⟩
    simp [countsOkL] at hbad
  | cons v rest =>
    have hv := wv_spec v
    have hr := wa_spec rest
    constructor
    · intro hok
      simp only [countsOkL, Bool.and_eq_true] at hok
      obtain ⟨bs, hbs⟩ := hv.1 hok.1
      obtain ⟨rs, hrs⟩ := hr.1 hok.2
      refine ⟨get_value_type_code v :: bs ++ rs, ?_⟩
      simp only [write_array_items, hbs, hrs]
      rfl
    · intro hbad
      simp only [countsOkL, Bool.and_eq_false_iff] at hbad
      cases hvv : countsOkV v with
      | false =>
        obtain ⟨c, hc, hmem, herr⟩ := hv.2 hvv
        refine ⟨c, hc, ?_, ?_⟩
        · simp [nodeCountsL, hmem]
        · simp only [write_array_items, herr]
          rfl
      | true =>
        have hrr : countsOkL rest = false := by
          rcases hbad with h1 | h2
          · rw [hvv] at h1; cases h1
          · exact h2
        obtain ⟨bs, hbs⟩ := hv.1 hvv
        obtain ⟨c, hc, hmem, herr⟩ := hr.2 hrr
        refine ⟨c, hc, ?_, ?_⟩
        · simp [nodeCountsL, hmem]
        · simp only [write_array_items, hbs, herr]
          rfl

theorem wo_spec (l : List (Nat × Value)) :
    (countsOkP l = true → ∃ bs, write_object_items l = .ok bs) ∧
    (countsOkP l = false → ∃ c, 255 < c ∧ c ∈ nodeCountsP l ∧
      write_object_items l = .error (.propCountExceeded c)) := by
  cases l with
  | nil =>
    refine ⟨fun _ => ⟨[], by rw [write_object_items]⟩, fun hbad => ?_⟩
    simp [countsOkP] at hbad
  | cons p rest =>
    obtain ⟨hash, v⟩ := p
    have hv := wv_spec v
    have hr := wo_spec rest
    constructor
    · intro hok
      simp only [countsOkP, Bool.and_eq_true] at hok
      obtain ⟨bs, hbs⟩ := hv.1 hok.1
      obtain ⟨rs, hrs⟩ := hr.1 hok.2
      refine ⟨le_bytes 8 hash ++ [get_value_type_code v] ++ bs ++ rs, ?_⟩
      simp only [write_object_items, hbs, hrs]
      rfl
    · intro hbad
      simp only [countsOkP, Bool.and_eq_false_iff] at hbad
      cases hvv : countsOkV v with
      | false =>
        obtain ⟨c, hc, hmem, herr⟩ := hv.2 hvv
        refine ⟨c, hc, ?_, ?_⟩
        · simp [nodeCountsP, hmem]
        · simp only [write_object_items, herr]
          rfl
      | true =>
        have hrr : countsOkP rest = false := by
          rcases hbad with h1 | h2
          · rw [hvv] at h1; cases h1
          · exact h2
        obtain ⟨bs, hbs⟩ := hv.1 hvv
        obtain ⟨c, hc, hmem, herr⟩ := hr.2 hrr
        refine ⟨c, hc, ?_, ?_⟩
        · simp [nodeCountsP, hbs, hmem]
        · simp only [write_object_items, hbs, herr]
          rfl

end

/-- C3: if any object or array in the tree holds more than 255 entries,
encoding fails with `PropCountExceeded` carrying the entry count of a
violating node and writes nothing to the sink; if all counts are at most
255, encoding succeeds and each object and array block begins with its
one-byte entry count. -/
theorem write_structured_data_spec (dest : List Nat) (obj : List (Nat × Value)) :
    (countsOkV (.object obj) = true →
      ∃ body, write_object obj = .ok (obj.length :: body) ∧
        write_structured_data dest obj = .ok (dest ++ obj.length :: body)) ∧
    (countsOkV (.object obj) = false →
      ∃ c, 255 < c ∧ c ∈ nodeCountsV (.object obj) ∧
        write_structured_data dest obj = .error (.propCountExceeded c)) ∧
    (∀ arr : List Value, countsOkV (.array arr) = true →
      ∃ body, write_array arr = .ok (arr.length :: body)) := by
  refine ⟨?_, ?_, ?_⟩
  · intro hok
    simp only [countsOkV, Bool.and_eq_true, decide_eq_true_eq] at hok
    obtain ⟨bs, hbs⟩ := (wo_spec obj).1 hok.2
    have hwo : write_object obj = .ok (obj.length :: bs) := by
      simp only [write_object, hbs]
      rw [if_neg (Nat.not_lt.mpr hok.1)]
      rfl
    refine ⟨bs, hwo, ?_⟩
    simp only [write_structured_data, hwo]
    rfl
  · intro hbad
    simp only [countsOkV, Bool.and_eq_false_iff, decide_eq_false_iff_not,
      Nat.not_le] at hbad
    by_cases hlen : 255 < obj.length
    · refine ⟨obj.length, hlen, by simp [nodeCountsV], ?_⟩
      have hwo : write_object obj = .error (.propCountExceeded obj.length) := by
        simp only [write_object]
        rw [if_pos hlen]
      simp only [write_structured_data, hwo]
      rfl
    · have hco : countsOkP obj = false := by
        rcases hbad with h1 | h2
        · exact absurd h1 hlen
        · exact h2
      obtain ⟨c, hc, hmem, herr⟩ := (wo_spec obj).2 hco
      refine ⟨c, hc, by simp [nodeCountsV, hmem], ?_⟩
      have hwo : write_object obj = .error (.propCountExceeded c) := by
        simp only [write_object, herr]
        rw [if_neg hlen]
        rfl
      simp only [write_structured_data, hwo]
      rfl
  · intro arr hok
    simp only [countsOkV, Bool.and_eq_true, decide_eq_true_eq] at hok
    obtain ⟨bs, hbs⟩ := (wa_spec arr).1 hok.2
    refine ⟨bs, ?_⟩
    simp only [write_array, hbs]
    rw [if_neg (Nat.not_lt.mpr hok.1)]
    rfl

set_option maxRecDepth 10000 in
/-- Witness for `write_structured_data_spec`: a one-entry object
encodes with leading count byte 1; an object holding a 256-element
array fails with `PropCountExceeded 256` and emits nothing; a two-element
array block starts with count byte 2. -/
theorem write_structured_data_spec_witness :
    (countsOkV (.object [(1, Value.uint8 7)]) = true ∧
      ∃ body, write_object [(1, Value.uint8 7)] = .ok (1 :: body) ∧
        write_structured_data [9] [(1, Value.uint8 7)] = .ok ([9] ++ 1 :: body)) ∧
    (countsOkV (.object [(1, Value.array (List.replicate 256 Value.null))]) = false ∧
      ∃ c, 255 < c ∧
        c ∈ nodeCountsV (.object [(1, Value.array (List.replicate 256 Value.null))]) ∧
        write_structured_data [] [(1, Value.array (List.replicate 256 Value.null))] =
          .error (.propCountExceeded c)) ∧
    (countsOkV (.array [Value.null, Value.bool true]) = true ∧
      ∃ body, write_array [Value.null, Value.bool true] = .ok (2 :: body)) :=
  ⟨⟨by decide, (write_structured_data_spec [9] [(1, Value.uint8 7)]).1 (by decide)⟩,
   ⟨by decide, (write_structured_data_spec [] [(1, Value.array (List.replicate 256 Value.null))]).2.1
      (by decide)⟩,
   ⟨by decide, (write_structured_data_spec [] []).2.2 [Value.null, Value.bool true] (by decide)⟩⟩

/-! ## Section data store (`src/section/mod.rs`) -/

/-- Translation of `MEMORY_THRESHOLD` (`src/section/mod.rs`, line 40). -/
def MEMORY_THRESHOLD : Nat := 100000000

/-- Modelled from the spec: `section/memory.rs` is absent from `src/`.
Per §4.3 the in-memory store is a dynamic byte vector with a logical
cursor. -/
structure InMemorySection where
  data : List Nat
  cursor : Nat
  deriving DecidableEq, Repr

/-- Modelled from the spec: `section/file.rs` is absent from `src/`.
The spill store is a fresh temporary file, observable through the same
byte-store interface; its state is the file contents and seek position. -/
structure FileBasedSection where
  file : List Nat
  fpos : Nat
  deriving DecidableEq, Repr

/-- Modelled from the spec (§4.3): sequential read of up to `n` bytes
from the cursor. -/
def mem_read (s : InMemorySection) (n : Nat) : List Nat × InMemorySection :=
  let bytes := (s.data.drop s.cursor).take n
  (bytes, ⟨s.data, s.cursor + bytes.length⟩)

/-- Modelled from the spec (§4.3): write at the cursor, overwriting and
extending the logical length as needed (zero-filling any gap left by a
seek past the end). -/
def mem_write (s : InMemorySection) (bs : List Nat) : InMemorySection :=
  ⟨s.data.take s.cursor ++ List.replicate (s.cursor - s.data.length) 0 ++ bs ++
    s.data.drop (s.cursor + bs.length), s.cursor + bs.length⟩

/-- Modelled from the spec (§4.3): absolute seek; a seek past the end
grows the buffer with zero bytes. -/
def mem_seek (s : InMemorySection) (p : Nat) : InMemorySection :=
  if s.data.length < p then ⟨s.data ++ List.replicate (p - s.data.length) 0, p⟩
  else ⟨s.data, p⟩

/-- Modelled from the spec (§4.3): current logical length. -/
def mem_size (s : InMemorySection) : Nat := s.data.length

/-- Modelled from the spec: the file-backed read, with the semantics §4.3
requires to be identical to the in-memory one. -/
def file_read (f : FileBasedSection) (n : Nat) : List Nat × FileBasedSection :=
  let bytes := (f.file.drop f.fpos).take n
  (bytes, ⟨f.file, f.fpos + bytes.length⟩)

/-- Modelled from the spec: the file-backed write. -/
def file_write (f : FileBasedSection) (bs : List Nat) : FileBasedSection :=
  ⟨f.file.take f.fpos ++ List.replicate (f.fpos - f.file.length) 0 ++ bs ++
    f.file.drop (f.fpos + bs.length), f.fpos + bs.length⟩

/-- Modelled from the spec: the file-backed absolute seek. -/
def file_seek (f : FileBasedSection) (p : Nat) : FileBasedSection :=
  if f.file.length < p then ⟨f.file ++ List.replicate (p - f.file.length) 0, p⟩
  else ⟨f.file, p⟩

/-- Modelled from the spec: the file-backed size query. -/
def file_size (f : FileBasedSection) : Nat := f.file.length

/-- The two payload back-ends behind the `SectionData` trait object
(`src/section/mod.rs`). -/
inductive SectionData where
  | memory (s : InMemorySection)
  | file (f : FileBasedSection)
  deriving DecidableEq, Repr

def SectionData.isInMemory : SectionData → Bool
  | .memory _ => true
  | .file _ => false

def SectionData.seek (sd : SectionData) (p : Nat) : SectionData :=
  match sd with
  | .memory s => .memory (mem_seek s p)
  | .file f => .file (file_seek f p)

/-- Translation of `new_section_data` (`src/section/mod.rs`, lines
96-106): a declared size above the threshold spills to a temporary file,
a declared size at or below it gets an in-memory vector of that many
zero bytes, and an unknown size (`None`) spills to a temporary file. -/
def new_section_data (size : Option Nat) : SectionData :=
  match size with
  | some s =>
    if MEMORY_THRESHOLD < s then .file ⟨[], 0⟩
    else .memory ⟨List.replicate s 0, 0⟩
  | none => .file ⟨[], 0⟩

/-- Translation of the free function `create_section`
(`src/encoder.rs`, lines 295-306): a zero `size` in the template header
means the capacity is unknown. -/
def create_section (header : SectionHeader) : SectionData :=
  if header.size = 0 then (new_section_data none).seek 0
  else (new_section_data (some header.size)).seek 0

/-- The logical state a file-backed section presents: same bytes, same
cursor. -/
def toMem (f : FileBasedSection) : InMemorySection := ⟨f.file, f.fpos⟩

/-- C4 counterexample: a section created from a template header with
`size = 0` (unknown capacity) is file-backed, not in-memory as claimed. -/
theorem create_section_unknown_size_counterexample :
    (create_section ⟨0, 0, 0, 0, 0, 0⟩).isInMemory = false := by rfl

/-- C4 (amended): the payload store is an in-memory buffer exactly when
the declared capacity is known (nonzero) and at most the 100000000-byte
threshold; an unknown (zero) or larger declared capacity yields a newly
created temporary spill file.  Both back-ends present identical
read/write/seek/size semantics. -/
theorem create_section_backend_spec (header : SectionHeader) :
    ((create_section header).isInMemory =
      decide (header.size ≠ 0 ∧ header.size ≤ MEMORY_THRESHOLD)) ∧
    ((new_section_data none).isInMemory = false) ∧
    (∀ s : Nat, (new_section_data (some s)).isInMemory = decide (s ≤ MEMORY_THRESHOLD)) ∧
    (∀ f : FileBasedSection, ∀ n : Nat,
      (file_read f n).1 = (mem_read (toMem f) n).1 ∧
      toMem (file_read f n).2 = (mem_read (toMem f) n).2) ∧
    (∀ f : FileBasedSection, ∀ bs : List Nat,
      toMem (file_write f bs) = mem_write (toMem f) bs) ∧
    (∀ f : FileBasedSection, ∀ p : Nat,
      toMem (file_seek f p) = mem_seek (toMem f) p) ∧
    (∀ f : FileBasedSection, file_size f = mem_size (toMem f)) := by
  refine ⟨?_, rfl, ?_, ?_, ?_, ?_, ?_⟩
  · unfold create_section new_section_data
    by_cases h0 : header.size = 0
    · simp [h0, SectionData.seek, SectionData.isInMemory]
    · by_cases hbig : MEMORY_THRESHOLD < header.size
      · simp [h0, hbig, SectionData.seek, SectionData.isInMemory, Nat.not_le.mpr hbig]
      · simp [h0, hbig, SectionData.seek, SectionData.isInMemory, Nat.not_lt.mp hbig]
  · intro s
    unfold new_section_data
    by_cases hbig : MEMORY_THRESHOLD < s
    · simp [hbig, SectionData.isInMemory, Nat.not_le.mpr hbig]
    · simp [hbig, SectionData.isInMemory, Nat.not_lt.mp hbig]
  · intro f n
    exact ⟨rfl, rfl⟩
  · intro f bs
    rfl
  · intro f p
    unfold file_seek mem_seek toMem
    split_ifs <;> rfl
  · intro f
    rfl

/-! ## String sections (`src/strings.rs`) -/

/-- Continuation-byte test of UTF-8. -/
def isCont (c : Nat) : Bool := 0x80 ≤ c && c ≤ 0xBF

/-- Modelling boundary: Rust's `String::from_utf8` (standard library)
validates UTF-8.  Rust strings are modelled as their byte vectors; this
is the RFC 3629 validity check their invariant requires. -/
def validUtf8 : List Nat → Bool
  | [] => true
  | b :: rest =>
    if b < 0x80 then validUtf8 rest
    else if 0xC2 ≤ b && b ≤ 0xDF then
      match rest with
      | c1 :: r => isCont c1 && validUtf8 r
      | _ => false
    else if b == 0xE0 then
      match rest with
      | c1 :: c2 :: r => (0xA0 ≤ c1 && c1 ≤ 0xBF) && isCont c2 && validUtf8 r
      | _ => false
    else if 0xE1 ≤ b && b ≤ 0xEC then
      match rest with
      | c1 :: c2 :: r => isCont c1 && isCont c2 && validUtf8 r
      | _ => false
    else if b == 0xED then
      match rest with
      | c1 :: c2 :: r => (0x80 ≤ c1 && c1 ≤ 0x9F) && isCont c2 && validUtf8 r
      | _ => false
    else if 0xEE ≤ b && b ≤ 0xEF then
      match rest with
      | c1 :: c2 :: r => isCont c1 && isCont c2 && validUtf8 r
      | _ => false
    else if b == 0xF0 then
      match rest with
      | c1 :: c2 :: c3 :: r =>
        (0x90 ≤ c1 && c1 ≤ 0xBF) && isCont c2 && isCont c3 && validUtf8 r
      | _ => false
    else if 0xF1 ≤ b && b ≤ 0xF3 then
      match rest with
      | c1 :: c2 :: c3 :: r => isCont c1 && isCont c2 && isCont c3 && validUtf8 r
      | _ => false
    else if b == 0xF4 then
      match rest with
      | c1 :: c2 :: c3 :: r =>
        (0x80 ≤ c1 && c1 ≤ 0x8F) && isCont c2 && isCont c3 && validUtf8 r
      | _ => false
    else false

/-- Byte text of the tag `"string secton read"` (sic) carried by the
truncation error of `low_level_read_string` (`src/strings.rs`, line 133). -/
def STRING_SECTON_READ_TAG : List Nat :=
  [115, 116, 114, 105, 110, 103, 32, 115, 101, 99, 116, 111, 110, 32, 114, 101, 97, 100]

/-- Byte text of the tag `"string section read"` carried by the UTF-8
error of `low_level_read_string` (`src/strings.rs`, line 137). -/
def STRING_SECTION_READ_TAG : List Nat :=
  [115, 116, 114, 105, 110, 103, 32, 115, 101, 99, 116, 105, 111, 110, 32, 114, 101, 97, 100]

/-- The `String::from_utf8` call at the end of `low_level_read_string`
(`src/strings.rs`, lines 136-139): the same bytes on success, a tagged
UTF-8 error otherwise. -/
def fromUtf8 (bs : List Nat) : Except Error (List Nat) :=
  if validUtf8 bs then .ok bs else .error (.utf8 STRING_SECTION_READ_TAG)

/-- The `while chr != 0` loop of `low_level_read_string`
(`src/strings.rs`, lines 129-135), recursing over the bytes still ahead
of the cursor; the second component counts the one-byte reads performed
by the loop (for cursor accounting). -/
def read_string_go (chr : Nat) (remaining curs : List Nat) : Except Error (List Nat) × Nat :=
  if chr = 0 then (fromUtf8 curs, 0)
  else
    match remaining with
    | [] => (.error (.truncation STRING_SECTON_READ_TAG), 0)
    | b :: rest =>
      let r := read_string_go b rest (curs ++ [chr])
      (r.1, r.2 + 1)

/-- Translation of `low_level_read_string` (`src/strings.rs`, lines
122-140): seek to `ptr`, read one byte (whose result is not checked —
an empty read leaves the zero-initialized buffer), then loop until a
zero byte.  Returns the result and the section state left behind. -/
def low_level_read_string (ptr : Nat) (sec : InMemorySection) :
    Except Error (List Nat) × InMemorySection :=
  let sec1 := mem_seek sec ptr
  let first := mem_read sec1 1
  match first.1 with
  | [] => (fromUtf8 [], first.2)
  | chr :: _ =>
    let r := read_string_go chr (first.2.data.drop first.2.cursor) []
    (r.1, ⟨first.2.data, first.2.cursor + r.2⟩)

/-- Translation of `low_level_write_string` (`src/strings.rs`, lines
142-148): record the current size, write the bytes, write one zero
byte.  The writes land at the section's cursor, not at its end. -/
def low_level_write_string (s : List Nat) (sec : InMemorySection) : Nat × InMemorySection :=
  let ptr := mem_size sec
  let sec1 := mem_write sec s
  let sec2 := mem_write sec1 [0x0]
  (ptr, sec2)

/-- Lookup in the association-list model of `std::collections::HashMap`. -/
def hm_get {α : Type} (m : List (Nat × α)) (k : Nat) : Option α :=
  match m with
  | [] => none
  | (k2, v) :: rest => if k2 = k then some v else hm_get rest k

/-- Insert-or-replace in the association-list model of `HashMap`. -/
def hm_insert {α : Type} (m : List (Nat × α)) (k : Nat) (v : α) : List (Nat × α) :=
  match m with
  | [] => [(k, v)]
  | (k2, v2) :: rest => if k2 = k then (k, v) :: rest else (k2, v2) :: hm_insert rest k v

/-- Translation of `StringSection` (`src/strings.rs`): the offset-to-
string cache (the handle is implicit: operations also take the section
state). -/
structure StringSection where
  cache : List (Nat × List Nat)
  deriving DecidableEq, Repr

/-- Translation of `StringSection::get` (`src/strings.rs`, lines
88-99): serve from the cache, otherwise read from the section and cache
the result. -/
def StringSection.get (ss : StringSection) (address : Nat) (sec : InMemorySection) :
    Except Error (List Nat) × StringSection × InMemorySection :=
  match hm_get ss.cache address with
  | some s => (.ok s, ss, sec)
  | none =>
    let r := low_level_read_string address sec
    match r.1 with
    | .ok s => (.ok s, ⟨hm_insert ss.cache address s⟩, r.2)
    | .error e => (.error e, ss, r.2)

/-- Translation of `StringSection::put` (`src/strings.rs`, lines
113-119): write, then cache `offset → s`. -/
def StringSection.put (ss : StringSection) (s : List Nat) (sec : InMemorySection) :
    Nat × StringSection × InMemorySection :=
  let r := low_level_write_string s sec
  (r.1, ⟨hm_insert ss.cache r.1 s⟩, r.2)


theorem hm_get_insert {α : Type} (m : List (Nat × α)) (k : Nat) (v : α) :
    hm_get (hm_insert m k v) k = some v := by
  induction m with
  | nil => simp [hm_insert, hm_get]
  | cons p rest ih =>
    obtain ⟨k2, v2⟩ := p
    by_cases hk : k2 = k
    · simp [hm_insert, hm_get, hk]
    · simp [hm_insert, hm_get, hk, ih]

theorem read_string_go_zero (rem curs : List Nat) :
    read_string_go 0 rem curs = (fromUtf8 curs, 0) := by
  rw [read_string_go.eq_def]
  simp

theorem read_string_go_nil (chr : Nat) (curs : List Nat) (h : chr ≠ 0) :
    read_string_go chr [] curs = (.error (.truncation STRING_SECTON_READ_TAG), 0) := by
  rw [read_string_go.eq_def]
  rw [if_neg h]

theorem read_string_go_cons (chr b : Nat) (rest curs : List Nat) (hchr : chr ≠ 0) :
    read_string_go chr (b :: rest) curs =
      ((read_string_go b rest (curs ++ [chr])).1,
        (read_string_go b rest (curs ++ [chr])).2 + 1) := by
  conv_lhs => rw [read_string_go.eq_def]
  rw [if_neg hchr]

theorem fromUtf8_ne_truncation (curs t : List Nat) :
    fromUtf8 curs ≠ .error (.truncation t) := by
  unfold fromUtf8
  split_ifs <;> simp

theorem read_string_go_ok (bs : List Nat) :
    ∀ (b : Nat) (curs rest : List Nat), b ≠ 0 → (∀ x ∈ bs, x ≠ 0) →
      read_string_go b (bs ++ 0 :: rest) curs = (fromUtf8 (curs ++ b :: bs), bs.length + 1) := by
  induction bs with
  | nil =>
    intro b curs rest hb _
    rw [List.nil_append, read_string_go_cons b 0 rest curs hb, read_string_go_zero]
    simp
  | cons x xs ih =>
    intro b curs rest hb hbs
    have hx : x ≠ 0 := hbs x (List.mem_cons_self _ _)
    rw [List.cons_append, read_string_go_cons b x (xs ++ 0 :: rest) curs hb,
      ih x (curs ++ [b]) rest hx (fun y hy => hbs y (List.mem_cons_of_mem _ hy))]
    simp

theorem read_string_go_trunc (rem : List Nat) :
    ∀ (chr : Nat) (curs t : List Nat),
      (read_string_go chr rem curs).1 = .error (.truncation t) → chr ≠ 0 ∧ 0 ∉ rem := by
  induction rem with
  | nil =>
    intro chr curs t h
    by_cases hc : chr = 0
    · subst hc
      rw [read_string_go_zero] at h
      exact absurd h (fromUtf8_ne_truncation curs t)
    · exact ⟨hc, by simp⟩
  | cons b rest ih =>
    intro chr curs t h
    by_cases hc : chr = 0
    · subst hc
      rw [read_string_go_zero] at h
      exact absurd h (fromUtf8_ne_truncation curs t)
    · rw [read_string_go_cons chr b rest curs hc] at h
      obtain ⟨hb, hmem⟩ := ih b (curs ++ [chr]) t h
      refine ⟨hc, ?_⟩
      simp only [List.mem_cons, not_or]
      exact ⟨fun h0 => hb h0.symm, hmem⟩

theorem mem_read_one_cons (dta : List Nat) (cu b : Nat) (tail : List Nat)
    (h : dta.drop cu = b :: tail) : mem_read ⟨dta, cu⟩ 1 = ([b], ⟨dta, cu + 1⟩) := by
  simp [mem_read, h]

theorem mem_read_one_nil (dta : List Nat) (cu : Nat)
    (h : dta.drop cu = []) : mem_read ⟨dta, cu⟩ 1 = ([], ⟨dta, cu⟩) := by
  simp [mem_read, h]

theorem low_level_read_string_found (dta : List Nat) (cu ptr : Nat) (s rest : List Nat)
    (hptr : ptr ≤ dta.length)
    (hdrop : dta.drop ptr = s ++ 0 :: rest)
    (hnz : ∀ b ∈ s, b ≠ 0) :
    (low_level_read_string ptr ⟨dta, cu⟩).1 = fromUtf8 s := by
  have hseek : mem_seek ⟨dta, cu⟩ ptr = ⟨dta, ptr⟩ := by
    unfold mem_seek
    rw [if_neg (Nat.not_lt.mpr hptr)]
  cases s with
  | nil =>
    have hread : mem_read ⟨dta, ptr⟩ 1 = ([0], ⟨dta, ptr + 1⟩) :=
      mem_read_one_cons dta ptr 0 rest (by simpa using hdrop)
    simp only [low_level_read_string, hseek, hread]
    rw [read_string_go_zero]
  | cons b bs =>
    have hb : b ≠ 0 := hnz b (List.mem_cons_self _ _)
    have hbs : ∀ x ∈ bs, x ≠ 0 := fun x hx => hnz x (List.mem_cons_of_mem _ hx)
    have hread : mem_read ⟨dta, ptr⟩ 1 = ([b], ⟨dta, ptr + 1⟩) :=
      mem_read_one_cons dta ptr b (bs ++ 0 :: rest) (by simpa using hdrop)
    have hdrop2 : dta.drop (ptr + 1) = bs ++ 0 :: rest := by
      have h1 : dta.drop (ptr + 1) = (dta.drop ptr).drop 1 := by
        rw [List.drop_drop]
      rw [h1, hdrop]
      simp
    simp only [low_level_read_string, hseek, hread]
    rw [hdrop2, read_string_go_ok bs b [] rest hb hbs]
    simp

theorem low_level_read_string_at_end (dta : List Nat) (cu : Nat) :
    (low_level_read_string dta.length ⟨dta, cu⟩).1 = .ok [] := by
  have hseek : mem_seek ⟨dta, cu⟩ dta.length = ⟨dta, dta.length⟩ := by
    unfold mem_seek
    rw [if_neg (by simp)]
  have hread : mem_read ⟨dta, dta.length⟩ 1 = ([], ⟨dta, dta.length⟩) :=
    mem_read_one_nil dta dta.length (List.drop_length dta)
  simp only [low_level_read_string, hseek, hread]
  rfl

theorem low_level_read_string_trunc (dta : List Nat) (cu ptr : Nat) (t : List Nat)
    (h : (low_level_read_string ptr ⟨dta, cu⟩).1 = .error (.truncation t)) :
    ∃ b tail, dta.drop ptr = b :: tail ∧ b ≠ 0 ∧ 0 ∉ b :: tail := by
  by_cases hp : dta.length < ptr
  · exfalso
    have hseek : mem_seek ⟨dta, cu⟩ ptr =
        ⟨dta ++ List.replicate (ptr - dta.length) 0, ptr⟩ := by
      unfold mem_seek
      rw [if_pos hp]
    have hlen : (dta ++ List.replicate (ptr - dta.length) 0).length = ptr := by
      simp
      omega
    have hread : mem_read ⟨dta ++ List.replicate (ptr - dta.length) 0, ptr⟩ 1 =
        ([], ⟨dta ++ List.replicate (ptr - dta.length) 0, ptr⟩) :=
      mem_read_one_nil _ _ (List.drop_eq_nil_of_le (by rw [hlen]))
    simp only [low_level_read_string, hseek, hread] at h
    all_goals exact fromUtf8_ne_truncation [] t h
  · have hseek : mem_seek ⟨dta, cu⟩ ptr = ⟨dta, ptr⟩ := by
      unfold mem_seek
      rw [if_neg hp]
    cases hdc : dta.drop ptr with
    | nil =>
      exfalso
      have hread : mem_read ⟨dta, ptr⟩ 1 = ([], ⟨dta, ptr⟩) := mem_read_one_nil dta ptr hdc
      simp only [low_level_read_string, hseek, hread] at h
      all_goals exact fromUtf8_ne_truncation [] t h
    | cons b tail =>
      have hread : mem_read ⟨dta, ptr⟩ 1 = ([b], ⟨dta, ptr + 1⟩) :=
        mem_read_one_cons dta ptr b tail hdc
      have hdrop2 : dta.drop (ptr + 1) = tail := by
        have h1 : dta.drop (ptr + 1) = (dta.drop ptr).drop 1 := by
          rw [List.drop_drop]
        rw [h1, hdc]
        simp
      simp only [low_level_read_string, hseek, hread, hdrop2] at h
      obtain ⟨hb, hmem⟩ := read_string_go_trunc tail b [] t h
      refine ⟨b, tail, rfl, hb, ?_⟩
      simp only [List.mem_cons, not_or]
      exact ⟨fun h0 => hb h0.symm, hmem⟩

theorem mem_write_at_end (d bs : List Nat) :
    mem_write ⟨d, d.length⟩ bs = ⟨d ++ bs, d.length + bs.length⟩ := by
  simp [mem_write, List.drop_eq_nil_of_le]

theorem low_level_write_string_at_end (d s : List Nat) :
    low_level_write_string s ⟨d, d.length⟩ =
      (d.length, ⟨d ++ s ++ [0], d.length + s.length + 1⟩) := by
  unfold low_level_write_string
  rw [mem_size]
  rw [mem_write_at_end]
  have h2 := mem_write_at_end (d ++ s) [0]
  simp only [List.length_append] at h2
  simp only [h2]
  simp [List.append_assoc]

/-- C6 (amended): for a valid UTF-8, NUL-free byte string and a section
whose cursor sits at its end (as it does after only put operations),
`put` returns the prior size, appends the bytes plus one zero byte,
leaves the cursor at the new end, and both a fresh low-level read at
the returned offset and a `StringSection::get` (served by the cache)
yield exactly the string. -/
theorem string_put_get_roundtrip (sec : InMemorySection) (s : List Nat)
    (hcur : sec.cursor = sec.data.length)
    (hnz : ∀ b ∈ s, b ≠ 0) (hval : validUtf8 s = true) :
    (low_level_write_string s sec).1 = mem_size sec ∧
    (low_level_write_string s sec).2.data = sec.data ++ s ++ [0] ∧
    (low_level_write_string s sec).2.cursor = (low_level_write_string s sec).2.data.length ∧
    (low_level_read_string (mem_size sec) (low_level_write_string s sec).2).1 = .ok s ∧
    (∀ ss : StringSection,
      (StringSection.get (StringSection.put ss s sec).2.1 (StringSection.put ss s sec).1
        (StringSection.put ss s sec).2.2).1 = .ok s) := by
  obtain ⟨d, cu⟩ := sec
  simp only at hcur
  subst hcur
  have hw := low_level_write_string_at_end d s
  have hread : (low_level_read_string d.length
      ⟨d ++ s ++ [0], d.length + s.length + 1⟩).1 = .ok s := by
    have hfound := low_level_read_string_found (d ++ s ++ [0]) (d.length + s.length + 1)
      d.length s [] (by simp) (by rw [List.append_assoc, List.drop_left]) hnz
    rw [hfound]
    simp [fromUtf8, hval]
  refine ⟨by rw [hw]; rfl, by rw [hw], by rw [hw]; simp only [List.length_append, List.length_cons, List.length_nil], by rw [hw]; exact hread, ?_⟩
  intro ss
  unfold StringSection.put
  rw [hw]
  simp only [StringSection.get, mem_size]
  rw [hm_get_insert]


/-- Witness for `string_put_get_roundtrip` at the string `"Test"` on a
fresh section. -/
theorem string_put_get_roundtrip_witness :
    (low_level_write_string [84, 101, 115, 116] ⟨[], 0⟩).1 = mem_size ⟨[], 0⟩ ∧
    (low_level_write_string [84, 101, 115, 116] ⟨[], 0⟩).2.data =
      [] ++ [84, 101, 115, 116] ++ [0] ∧
    (low_level_read_string (mem_size ⟨[], 0⟩)
      (low_level_write_string [84, 101, 115, 116] ⟨[], 0⟩).2).1 = .ok [84, 101, 115, 116] ∧
    (StringSection.get (StringSection.put ⟨[]⟩ [84, 101, 115, 116] ⟨[], 0⟩).2.1
      (StringSection.put ⟨[]⟩ [84, 101, 115, 116] ⟨[], 0⟩).1
      (StringSection.put ⟨[]⟩ [84, 101, 115, 116] ⟨[], 0⟩).2.2).1 = .ok [84, 101, 115, 116] := by
  have h := string_put_get_roundtrip ⟨[], 0⟩ [84, 101, 115, 116] rfl (by decide) (by decide)
  exact ⟨h.1, h.2.1, h.2.2.2.1, h.2.2.2.2 ⟨[]⟩⟩

/-- C6 counterexample: put "a", put "b", then a fresh reader's `get 0`
(cache miss) leaves the cursor at 2; a following put of "X" returns
offset 4 but writes at the cursor, overwriting "b" instead of appending,
and a fresh read at the returned offset yields the empty string, not
"X". -/
theorem string_put_overwrites_counterexample :
    (StringSection.put ⟨[]⟩ [97] ⟨[], 0⟩).2.2 = ⟨[97, 0], 2⟩ ∧
    (StringSection.put ⟨[]⟩ [98] ⟨[97, 0], 2⟩).2.2 = ⟨[97, 0, 98, 0], 4⟩ ∧
    (StringSection.get ⟨[]⟩ 0 ⟨[97, 0, 98, 0], 4⟩).1 = .ok [97] ∧
    (StringSection.get ⟨[]⟩ 0 ⟨[97, 0, 98, 0], 4⟩).2.2 = ⟨[97, 0, 98, 0], 2⟩ ∧
    (StringSection.put ⟨[]⟩ [88] ⟨[97, 0, 98, 0], 2⟩).1 = 4 ∧
    (StringSection.put ⟨[]⟩ [88] ⟨[97, 0, 98, 0], 2⟩).2.2.data = [97, 0, 88, 0] ∧
    [97, 0, 88, 0] ≠ [97, 0, 98, 0] ++ [88, 0] ∧
    (StringSection.get ⟨[]⟩ 4 ⟨[97, 0, 88, 0], 4⟩).1 = .ok [] ∧
    (Except.ok ([] : List Nat) : Except Error (List Nat)) ≠ Except.ok [88] :=
  ⟨rfl, rfl, rfl, rfl, rfl, rfl, by decide, rfl, by simp⟩

/-- C10: a read at an address equal to the section's size returns the
empty string (the first read's result is unchecked), also through
`StringSection::get` on a cache miss; and a truncation error occurs only
when the byte at the address exists, is non-zero, and no zero byte
follows before the end of the section. -/
theorem string_get_at_end_spec (sec : InMemorySection) (ss : StringSection) :
    (low_level_read_string (mem_size sec) sec).1 = .ok [] ∧
    (hm_get ss.cache (mem_size sec) = none →
      (StringSection.get ss (mem_size sec) sec).1 = .ok []) ∧
    (∀ ptr t, (low_level_read_string ptr sec).1 = .error (.truncation t) →
      ∃ b tail, sec.data.drop ptr = b :: tail ∧ b ≠ 0 ∧ 0 ∉ b :: tail) := by
  obtain ⟨d, cu⟩ := sec
  refine ⟨low_level_read_string_at_end d cu, ?_, ?_⟩
  · intro hmiss
    have hend := low_level_read_string_at_end d cu
    simp only [StringSection.get, mem_size] at hmiss ⊢
    simp only [hmiss]
    revert hend
    cases hr : low_level_read_string d.length ⟨d, cu⟩ with
    | mk r1 r2 =>
      intro hend
      simp only at hend
      subst hend
      rfl
  · intro ptr t h
    exact low_level_read_string_trunc d cu ptr t h

/-- Witness for `string_get_at_end_spec`: a cache-missing get at the end
of a two-byte section returns the empty string; a read of the
unterminated one-byte section `[65]` is a truncation whose byte 65 is
non-zero. -/
theorem string_get_at_end_spec_witness :
    (StringSection.get ⟨[(9, [7])]⟩ (mem_size ⟨[65, 0], 2⟩) ⟨[65, 0], 2⟩).1 = .ok [] ∧
    (∃ b tail, (⟨[65], 0⟩ : InMemorySection).data.drop 0 = b :: tail ∧ b ≠ 0 ∧
      0 ∉ b :: tail) :=
  ⟨(string_get_at_end_spec ⟨[65, 0], 2⟩ ⟨[(9, [7])]⟩).2.1 (by decide),
   (string_get_at_end_spec ⟨[65], 0⟩ ⟨[]⟩).2.2 0 STRING_SECTON_READ_TAG rfl⟩

/-! ## Debug symbols (`src/sd/debug.rs`) -/

/-- Modelled from the spec: `utils.rs` (the `hash` helper) is absent
from `src/`.  Per §3 it is a fixed deterministic 64-bit hash of the
UTF-8 bytes; an FNV-style fold is used here, and nothing below depends
on the exact mixing. -/
def hash (bs : List Nat) : Nat :=
  bs.foldl (fun h b => ((h ^^^ b) * 1099511628211) % 2 ^ 64) 14695981039346656037

/-- Byte text of the reserved property name `"__debug__"`
(`src/sd/debug.rs`). -/
def DEBUG_KEY : List Nat := [95, 95, 100, 101, 98, 117, 103, 95, 95]

/-- Translation of `Object::get` (`src/sd/object.rs`, lines 140-143):
lookup of the name's hash in the property map. -/
def object_get (props : List (Nat × Value)) (name : List Nat) : Option Value :=
  hm_get props (hash name)

/-- Modelled from the spec: the `TryInto<&Array>` conversion lives in
the absent `sd/value.rs`; a non-array value is a `TypeError`. -/
def value_as_array : Value → Except Error (List Value)
  | .array a => .ok a
  | _ => .error .typeError

/-- Modelled from the spec: the `TryInto<&str>` conversion of the
absent `sd/value.rs`; a non-string value is a `TypeError`. -/
def value_as_string : Value → Except Error (List Nat)
  | .string s => .ok s
  | _ => .error .typeError

/-- Translation of `DebugSymbols` (`src/sd/debug.rs`). -/
structure DebugSymbols where
  symbols_map : List (Nat × List Nat)
  symbols_list : List (List Nat)
  deriving DecidableEq, Repr

/-- Translation of `DebugSymbols::lookup` (`src/sd/debug.rs`, lines
75-81). -/
def DebugSymbols.lookup (d : DebugSymbols) (h : Nat) : Option (List Nat) :=
  hm_get d.symbols_map h

/-- The entry loop of `DebugSymbols::read` (`src/sd/debug.rs`, lines
168-171): convert each array element to a string and insert it keyed by
its hash. -/
def read_symbols (arr : List Value) (acc : List (Nat × List Nat)) :
    Except Error (List (Nat × List Nat)) :=
  match arr with
  | [] => .ok acc
  | v :: rest => do
    let sym ← value_as_string v
    read_symbols rest (hm_insert acc (hash sym) sym)

/-- Translation of `DebugSymbols::read` (`src/sd/debug.rs`, lines
163-178): a missing `"__debug__"` property is a `MissingProp` error. -/
def DebugSymbols.read (obj : List (Nat × Value)) : Except Error DebugSymbols :=
  match object_get obj DEBUG_KEY with
  | some val => do
    let arr ← value_as_array val
    let symbols ← read_symbols arr []
    .ok ⟨symbols, []⟩
  | none => .error (.missingProp DEBUG_KEY)

/-- Inserting under one key leaves lookups of other keys unchanged. -/
theorem hm_get_insert_ne {α : Type} (m : List (Nat × α)) (k k2 : Nat) (v : α)
    (h : k2 ≠ k) : hm_get (hm_insert m k v) k2 = hm_get m k2 := by
  have hne : ¬(k = k2) := fun he => h he.symm
  induction m with
  | nil =>
    simp only [hm_insert, hm_get]
    rw [if_neg hne]
  | cons p rest ih =>
    obtain ⟨k3, v3⟩ := p
    by_cases hk : k3 = k
    · subst hk
      simp only [hm_insert, if_pos rfl, hm_get]
      rw [if_neg hne, if_neg hne]
    · simp only [hm_insert, if_neg hk, hm_get]
      by_cases hk2 : k3 = k2
      · rw [if_pos hk2, if_pos hk2]
      · rw [if_neg hk2, if_neg hk2, ih]

/-- Folding inserts whose keys all differ from `k` does not change the
lookup of `k`. -/
theorem hm_get_fold_untouched (l : List (List Nat)) :
    ∀ (m : List (Nat × List Nat)) (k : Nat), (∀ t ∈ l, hash t ≠ k) →
      hm_get (l.foldl (fun m s => hm_insert m (hash s) s) m) k = hm_get m k := by
  induction l with
  | nil => intro m k _; rfl
  | cons x rest ih =>
    intro m k hne
    simp only [List.foldl_cons]
    rw [ih (hm_insert m (hash x) x) k (fun t ht => hne t (List.mem_cons_of_mem _ ht))]
    exact hm_get_insert_ne m (hash x) k x (Ne.symm (hne x (List.mem_cons_self _ _)))

/-- After inserting every symbol keyed by its hash, looking up the hash
of a listed symbol returns that symbol, provided the hash is injective
on the list. -/
theorem hm_get_fold_mem (l : List (List Nat)) :
    ∀ (m : List (Nat × List Nat)),
      (∀ a ∈ l, ∀ b ∈ l, hash a = hash b → a = b) →
      ∀ s ∈ l, hm_get (l.foldl (fun m s => hm_insert m (hash s) s) m) (hash s) = some s := by
  induction l with
  | nil => intro m _ s hs; cases hs
  | cons x rest ih =>
    intro m hinj s hs
    simp only [List.foldl_cons]
    rcases List.mem_cons.mp hs with hx | hr
    · subst hx
      by_cases hmem : s ∈ rest
      · exact ih (hm_insert m (hash s) s)
          (fun a ha b hb hab =>
            hinj a (List.mem_cons_of_mem _ ha) b (List.mem_cons_of_mem _ hb) hab)
          s hmem
      · rw [hm_get_fold_untouched rest (hm_insert m (hash s) s) (hash s)
          (fun t ht he => hmem ((hinj t (List.mem_cons_of_mem _ ht) s
            (List.mem_cons_self _ _) he) ▸ ht))]
        exact hm_get_insert m (hash s) s
    · exact ih (hm_insert m (hash x) x)
        (fun a ha b hb hab =>
          hinj a (List.mem_cons_of_mem _ ha) b (List.mem_cons_of_mem _ hb) hab)
        s hr

/-- On an array of strings the symbol loop succeeds and builds the
fold of inserts. -/
theorem read_symbols_strings (syms : List (List Nat)) :
    ∀ acc, read_symbols (syms.map Value.string) acc =
      .ok (syms.foldl (fun m s => hm_insert m (hash s) s) acc) := by
  induction syms with
  | nil => intro acc; rfl
  | cons x rest ih =>
    intro acc
    simp only [List.map_cons, read_symbols, value_as_string, bind, Except.bind, List.foldl_cons]
    exact ih (hm_insert acc (hash x) x)

/-- The symbol loop can only fail with a `TypeError`. -/
theorem read_symbols_error (arr : List Value) :
    ∀ acc e, read_symbols arr acc = .error e → e = .typeError := by
  induction arr with
  | nil => intro acc e h; cases h
  | cons v rest ih =>
    intro acc e h
    cases v
    case string s =>
      simp only [read_symbols, value_as_string, bind, Except.bind] at h
      exact ih _ e h
    all_goals
      simp only [read_symbols, value_as_string, bind, Except.bind] at h
    all_goals
      injection h with h2
    all_goals
      exact h2.symm

/-- C9: `DebugSymbols::read` returns `MissingProp "__debug__"` exactly
when the object has no `"__debug__"` property; when the property is an
array of strings (with hash-distinct names, as §3 assumes), `read`
succeeds and `lookup` of each listed name's hash returns that name. -/
theorem debug_read_spec (obj : List (Nat × Value)) :
    (DebugSymbols.read obj = .error (.missingProp DEBUG_KEY) ↔
      object_get obj DEBUG_KEY = none) ∧
    (∀ syms : List (List Nat),
      object_get obj DEBUG_KEY = some (.array (syms.map Value.string)) →
      (∀ a ∈ syms, ∀ b ∈ syms, hash a = hash b → a = b) →
      ∃ d, DebugSymbols.read obj = .ok d ∧ ∀ s ∈ syms, d.lookup (hash s) = some s) := by
  constructor
  · constructor
    · intro h
      cases hget : object_get obj DEBUG_KEY with
      | none => rfl
      | some val =>
        exfalso
        simp only [DebugSymbols.read, hget] at h
        cases val
        case array arr =>
          simp only [value_as_array, bind, Except.bind] at h
          cases hrs : read_symbols arr [] with
          | error e =>
            rw [hrs] at h
            have he := read_symbols_error arr [] e hrs
            subst he
            injection h with h2
            exact Error.noConfusion h2
          | ok symbols =>
            rw [hrs] at h
            exact Except.noConfusion h
        all_goals
          simp only [value_as_array, bind, Except.bind] at h
        all_goals
          injection h with h2
        all_goals
          exact Error.noConfusion h2
    · intro h
      simp only [DebugSymbols.read, h]
  · intro syms hget hinj
    refine ⟨⟨syms.foldl (fun m s => hm_insert m (hash s) s) [], []⟩, ?_, ?_⟩
    · simp only [DebugSymbols.read, hget, value_as_array, bind, Except.bind,
        read_symbols_strings syms []]
    · intro s hs
      exact hm_get_fold_mem syms [] hinj s hs

/-- Witness for `debug_read_spec`: the empty object is missing the
property; an object carrying the debug array `["a", "bc"]` reads back
both names by hash. -/
theorem debug_read_spec_witness :
    (DebugSymbols.read ([] : List (Nat × Value)) = .error (.missingProp DEBUG_KEY)) ∧
    (∃ d, DebugSymbols.read
        [(hash DEBUG_KEY, Value.array [Value.string [97], Value.string [98, 99]])] = .ok d ∧
      ∀ s ∈ [[97], [98, 99]], d.lookup (hash s) = some s) :=
  ⟨(debug_read_spec []).1.mpr rfl,
   (debug_read_spec [(hash DEBUG_KEY, Value.array [Value.string [97], Value.string [98, 99]])]).2
     [[97], [98, 99]] rfl (by decide)⟩

namespace Pkg

/-- Chunk size of the read buffer in PackageEncoder::write_object
(src/variant/package/encoder.rs line 50). -/
def DATA_WRITE_BUFFER_SIZE : Nat := 8192

def MIN_DATA_REMAINING_SIZE : Nat := DATA_WRITE_BUFFER_SIZE

def MAX_DATA_SECTION_SIZE : Nat := 200000000 - MIN_DATA_REMAINING_SIZE

/-- Modelled from the spec: variant/package/mod.rs is absent from src; the
spec gives the package data-section type code as 0x1. -/
def DATA_SECTION_TYPE : Nat := 1

/-- create_data_section_header (src/variant/package/encoder.rs lines 192-201):
a data section requests XZ compression and a CRC32 checksum. The
SectionHeaderBuilder itself (builder.rs) is absent from src; modelled from the
spec as setting the named type and flag bits on an otherwise zero header. -/
def create_data_section_header : SectionHeader :=
  { pointer := 0, size := 0, csize := 0, chksum := 0, btype := DATA_SECTION_TYPE,
    flags := FLAG_COMPRESS_XZ ||| FLAG_CHECK_CRC32 }

/-- PackageEncoder::write_object (src/variant/package/encoder.rs lines
204-220): repeatedly reads up to DATA_WRITE_BUFFER_SIZE bytes from the source
and appends them to the current data section; after each chunk, if the
section's size has reached MAX_DATA_SECTION_SIZE it stops and reports false
(more data may remain); when the source is exhausted it reports true. The
reader and section are modelled as byte lists: the remaining source and the
section contents are returned alongside the flag. -/
def write_object (src data : List Nat) : List Nat × List Nat × Bool :=
  if h0 : (src.take DATA_WRITE_BUFFER_SIZE).length = 0 then (src, data, true)
  else
    if MAX_DATA_SECTION_SIZE ≤ (data ++ src.take DATA_WRITE_BUFFER_SIZE).length then
      (src.drop DATA_WRITE_BUFFER_SIZE, data ++ src.take DATA_WRITE_BUFFER_SIZE, false)
    else write_object (src.drop DATA_WRITE_BUFFER_SIZE) (data ++ src.take DATA_WRITE_BUFFER_SIZE)
  termination_by src.length
  decreasing_by
    simp only [List.length_take] at h0
    simp only [List.length_drop]
    omega

theorem write_object_nil (data : List Nat) : write_object [] data = ([], data, true) := by
  unfold write_object
  rfl

theorem write_object_stop (src data : List Nat) (h1 : src ≠ [])
    (h2 : MAX_DATA_SECTION_SIZE ≤ (data ++ src.take DATA_WRITE_BUFFER_SIZE).length) :
    write_object src data =
      (src.drop DATA_WRITE_BUFFER_SIZE, data ++ src.take DATA_WRITE_BUFFER_SIZE, false) := by
  unfold write_object
  rw [dif_neg (by simp only [List.length_take]
                  have := List.length_pos.mpr h1
                  simp only [DATA_WRITE_BUFFER_SIZE]
                  omega)]
  rw [if_pos h2]

theorem write_object_step (src data : List Nat) (h1 : src ≠ [])
    (h2 : (data ++ src.take DATA_WRITE_BUFFER_SIZE).length < MAX_DATA_SECTION_SIZE) :
    write_object src data =
      write_object (src.drop DATA_WRITE_BUFFER_SIZE) (data ++ src.take DATA_WRITE_BUFFER_SIZE) := by
  conv_lhs => unfold write_object
  rw [dif_neg (by simp only [List.length_take]
                  have := List.length_pos.mpr h1
                  simp only [DATA_WRITE_BUFFER_SIZE]
                  omega)]
  rw [if_neg (Nat.not_le.mpr h2)]

theorem le_bytes_length (w v : Nat) : (le_bytes w v).length = w := by
  simp [le_bytes]

theorem write_object_spec_aux (n : Nat) : ∀ (src data : List Nat), src.length ≤ n →
    (∃ k, (write_object src data).1 = src.drop k ∧
      (write_object src data).2.1 = data ++ src.take k) ∧
    ((write_object src data).2.2 = true → (write_object src data).1 = [] ∧
      (write_object src data).2.1 = data ++ src) ∧
    ((write_object src data).2.2 = false →
      MAX_DATA_SECTION_SIZE ≤ (write_object src data).2.1.length) ∧
    ((write_object src data).2.1.length ≤ data.length + DATA_WRITE_BUFFER_SIZE ∨
      (write_object src data).2.1.length <
        MAX_DATA_SECTION_SIZE + DATA_WRITE_BUFFER_SIZE) := by
  induction n with
  | zero =>
    intro src data hlen
    have hsrc : src = [] := List.eq_nil_of_length_eq_zero (Nat.le_zero.mp hlen)
    subst hsrc
    rw [write_object_nil]
    exact ⟨⟨0, rfl, by simp⟩, fun _ => ⟨rfl, by simp⟩, fun hf => by simp at hf,
      Or.inl (Nat.le_add_right _ _)⟩
  | succ n ih =>
    intro src data hlen
    by_cases hne : src = []
    · subst hne
      rw [write_object_nil]
      exact ⟨⟨0, rfl, by simp⟩, fun _ => ⟨rfl, by simp⟩, fun hf => by simp at hf,
        Or.inl (Nat.le_add_right _ _)⟩
    · have hpos : 0 < src.length := List.length_pos.mpr hne
      by_cases hstop : MAX_DATA_SECTION_SIZE ≤ (data ++ src.take DATA_WRITE_BUFFER_SIZE).length
      · rw [write_object_stop src data hne hstop]
        refine ⟨⟨DATA_WRITE_BUFFER_SIZE, rfl, rfl⟩, fun hf => by simp at hf, fun _ => hstop, ?_⟩
        left
        have htk : (src.take DATA_WRITE_BUFFER_SIZE).length ≤ DATA_WRITE_BUFFER_SIZE := by
          simp [List.length_take]
        simp only [List.length_append]
        omega
      · rw [write_object_step src data hne (Nat.not_le.mp hstop)]
        have hdlen : (src.drop DATA_WRITE_BUFFER_SIZE).length ≤ n := by
          simp only [List.length_drop]
          have hb : 0 < DATA_WRITE_BUFFER_SIZE := by norm_num [DATA_WRITE_BUFFER_SIZE]
          omega
        obtain ⟨⟨k, hk1, hk2⟩, htrue, hfalse, hbound⟩ :=
          ih (src.drop DATA_WRITE_BUFFER_SIZE) (data ++ src.take DATA_WRITE_BUFFER_SIZE) hdlen
        refine ⟨⟨DATA_WRITE_BUFFER_SIZE + k, ?_, ?_⟩, ?_, hfalse, ?_⟩
        · rw [hk1, List.drop_drop]
        · rw [hk2, List.append_assoc]
          rw [← List.take_add]
        · intro ht
          obtain ⟨ha, hb⟩ := htrue ht
          refine ⟨ha, ?_⟩
          rw [hb, List.append_assoc, List.take_append_drop]
        · right
          rcases hbound with hb | hb
          · have := Nat.lt_of_not_le hstop
            simp only [List.length_append] at hb this ⊢
            omega
          · exact hb

theorem write_object_spec (src data : List Nat) :
    (∃ k, (write_object src data).1 = src.drop k ∧
      (write_object src data).2.1 = data ++ src.take k) ∧
    ((write_object src data).2.2 = true → (write_object src data).1 = [] ∧
      (write_object src data).2.1 = data ++ src) ∧
    ((write_object src data).2.2 = false →
      MAX_DATA_SECTION_SIZE ≤ (write_object src data).2.1.length) ∧
    ((write_object src data).2.1.length ≤ data.length + DATA_WRITE_BUFFER_SIZE ∨
      (write_object src data).2.1.length <
        MAX_DATA_SECTION_SIZE + DATA_WRITE_BUFFER_SIZE) :=
  write_object_spec_aux src.length src data le_rfl

theorem write_object_progress_aux (n : Nat) : ∀ (src data : List Nat), src.length ≤ n →
    (write_object src data).2.2 = false → (write_object src data).1.length < src.length := by
  induction n with
  | zero =>
    intro src data hlen hf
    have hsrc : src = [] := List.eq_nil_of_length_eq_zero (Nat.le_zero.mp hlen)
    subst hsrc
    rw [write_object_nil] at hf
    cases hf
  | succ n ih =>
    intro src data hlen hf
    by_cases hne : src = []
    · subst hne
      rw [write_object_nil] at hf
      cases hf
    · have hpos : 0 < src.length := List.length_pos.mpr hne
      have hb : 0 < DATA_WRITE_BUFFER_SIZE := by norm_num [DATA_WRITE_BUFFER_SIZE]
      by_cases hstop : MAX_DATA_SECTION_SIZE ≤ (data ++ src.take DATA_WRITE_BUFFER_SIZE).length
      · rw [write_object_stop src data hne hstop]
        simp only [List.length_drop]
        omega
      · rw [write_object_step src data hne (Nat.not_le.mp hstop)] at hf ⊢
        have hdlen : (src.drop DATA_WRITE_BUFFER_SIZE).length ≤ n := by
          simp only [List.length_drop]
          omega
        have := ih (src.drop DATA_WRITE_BUFFER_SIZE)
          (data ++ src.take DATA_WRITE_BUFFER_SIZE) hdlen hf
        have hd : (src.drop DATA_WRITE_BUFFER_SIZE).length < src.length := by
          simp only [List.length_drop]
          omega
        omega

theorem write_object_progress (src data : List Nat)
    (hf : (write_object src data).2.2 = false) :
    (write_object src data).1.length < src.length :=
  write_object_progress_aux src.length src data le_rfl hf

/-- The retry loop of PackageEncoder::pack_file (src/variant/package/encoder.rs
lines 236-246): while write_object reports false, the current data section is
closed and a fresh one is created for the remaining bytes. Returns the open
section's contents and the list of closed sections in order. -/
def pack_file_loop (src cur : List Nat) : List Nat × List (List Nat) :=
  if hb : (write_object src cur).2.2 = true then ((write_object src cur).2.1, [])
  else
    ((pack_file_loop (write_object src cur).1 []).1,
      (write_object src cur).2.1 :: (pack_file_loop (write_object src cur).1 []).2)
  termination_by src.length
  decreasing_by
    exact write_object_progress src cur (by simpa using hb)

/-- PackageEncoder::pack_file (src/variant/package/encoder.rs lines 222-247):
writes the 8-byte little-endian file size and the 4-byte little-endian name
pointer into the current data section, then streams the file through
write_object, closing full sections and opening new ones as needed. -/
def pack_file (src : List Nat) (nameOffset : Nat) (cur : List Nat) :
    List Nat × List (List Nat) :=
  pack_file_loop src (cur ++ (le_bytes 8 src.length ++ le_bytes 4 nameOffset))

theorem pack_file_loop_done (src cur : List Nat)
    (h : (write_object src cur).2.2 = true) :
    pack_file_loop src cur = ((write_object src cur).2.1, []) := by
  unfold pack_file_loop
  rw [dif_pos h]

theorem pack_file_loop_split (src cur : List Nat)
    (h : (write_object src cur).2.2 = false) :
    pack_file_loop src cur =
      ((pack_file_loop (write_object src cur).1 []).1,
        (write_object src cur).2.1 :: (pack_file_loop (write_object src cur).1 []).2) := by
  conv_lhs => unfold pack_file_loop
  rw [dif_neg (by simp [h])]

theorem pack_file_loop_spec_aux (n : Nat) : ∀ (src cur : List Nat), src.length ≤ n →
    ((pack_file_loop src cur).2.foldr (· ++ ·) (pack_file_loop src cur).1 = cur ++ src) ∧
    (∀ d ∈ (pack_file_loop src cur).2, MAX_DATA_SECTION_SIZE ≤ d.length) ∧
    (∀ d ∈ (pack_file_loop src cur).2,
      d.length ≤ cur.length + DATA_WRITE_BUFFER_SIZE ∨
      d.length < MAX_DATA_SECTION_SIZE + DATA_WRITE_BUFFER_SIZE) ∧
    ((pack_file_loop src cur).1.length ≤ cur.length + DATA_WRITE_BUFFER_SIZE ∨
      (pack_file_loop src cur).1.length <
        MAX_DATA_SECTION_SIZE + DATA_WRITE_BUFFER_SIZE) := by
  induction n using Nat.strong_induction_on with
  | _ n ih =>
    intro src cur hlen
    obtain ⟨⟨k, hk1, hk2⟩, htrue, hfalse, hbound⟩ := write_object_spec src cur
    cases hb : (write_object src cur).2.2 with
    | true =>
      rw [pack_file_loop_done src cur hb]
      obtain ⟨ha, hdata⟩ := htrue hb
      exact ⟨by simpa using hdata, by simp, by simp, by simpa using hbound⟩
    | false =>
      rw [pack_file_loop_split src cur hb]
      dsimp only
      have hprog : (write_object src cur).1.length < src.length :=
        write_object_progress src cur hb
      have hnlt : (write_object src cur).1.length < n := Nat.lt_of_lt_of_le hprog hlen
      obtain ⟨ihspan, ihmax, ihbnd, ihfin⟩ :=
        ih (write_object src cur).1.length (by omega) (write_object src cur).1 [] le_rfl
      refine ⟨?_, ?_, ?_, ?_⟩
      · simp only [List.foldr_cons]
        rw [ihspan, List.nil_append, hk2, hk1, List.append_assoc, List.take_append_drop]
      · intro d hd
        rcases List.mem_cons.mp hd with hd1 | hd2
        · subst hd1
          exact hfalse hb
        · exact ihmax d hd2
      · intro d hd
        rcases List.mem_cons.mp hd with hd1 | hd2
        · subst hd1
          exact hbound
        · rcases ihbnd d hd2 with hx | hx
          · right
            simp only [List.length_nil] at hx
            have hm : 0 < MAX_DATA_SECTION_SIZE := by
              norm_num [MAX_DATA_SECTION_SIZE, MIN_DATA_REMAINING_SIZE, DATA_WRITE_BUFFER_SIZE]
            omega
          · exact Or.inr hx
      · rcases ihfin with hx | hx
        · right
          simp only [List.length_nil] at hx
          have hm : 0 < MAX_DATA_SECTION_SIZE := by
            norm_num [MAX_DATA_SECTION_SIZE, MIN_DATA_REMAINING_SIZE, DATA_WRITE_BUFFER_SIZE]
          omega
        · exact Or.inr hx

/-- C7 (amended): while packing a file, every data section closed during the
call reached at least MAX_DATA_SECTION_SIZE = 200000000 - 8192 uncompressed
bytes; the still-open section and each closed section stay strictly below
200000012 bytes (the limit, one 8192-byte buffer of slack, plus the 12-byte
per-file size/name record which pack_file writes unconditionally before
checking the limit); newly created data sections request XZ compression and a
CRC32 checksum; and the concatenation of the closed sections, in order,
followed by the open section, equals the previous open-section contents
followed by the file's 12-byte record and the file's bytes, so a payload may
span consecutive sections. The hypothesis is that the open section starts
below the limit, which write_object preserves. -/
theorem pack_file_spec (src cur : List Nat) (nameOffset : Nat)
    (hcur : cur.length < MAX_DATA_SECTION_SIZE) :
    ((pack_file src nameOffset cur).2.foldr (· ++ ·) (pack_file src nameOffset cur).1 =
      cur ++ (le_bytes 8 src.length ++ le_bytes 4 nameOffset) ++ src) ∧
    (∀ d ∈ (pack_file src nameOffset cur).2, MAX_DATA_SECTION_SIZE ≤ d.length) ∧
    (∀ d ∈ (pack_file src nameOffset cur).2, d.length < 200000012) ∧
    (pack_file src nameOffset cur).1.length < 200000012 ∧
    create_data_section_header.flags &&& FLAG_COMPRESS_XZ ≠ 0 ∧
    create_data_section_header.flags &&& FLAG_CHECK_CRC32 ≠ 0 ∧
    create_data_section_header.btype = DATA_SECTION_TYPE := by
  unfold pack_file
  obtain ⟨hspan, hmax, hbnd, hfin⟩ := pack_file_loop_spec_aux src.length src
    (cur ++ (le_bytes 8 src.length ++ le_bytes 4 nameOffset)) le_rfl
  have hrec : (cur ++ (le_bytes 8 src.length ++ le_bytes 4 nameOffset)).length =
      cur.length + 12 := by
    simp [le_bytes_length]
  have hnum1 : MAX_DATA_SECTION_SIZE + DATA_WRITE_BUFFER_SIZE = 200000000 := by
    norm_num [MAX_DATA_SECTION_SIZE, MIN_DATA_REMAINING_SIZE, DATA_WRITE_BUFFER_SIZE]
  have hnum2 : DATA_WRITE_BUFFER_SIZE = 8192 := by
    norm_num [DATA_WRITE_BUFFER_SIZE]
  refine ⟨?_, hmax, ?_, ?_, by decide, by decide, rfl⟩
  · rw [hspan, List.append_assoc]
  · intro d hd
    rcases hbnd d hd with hx | hx <;> omega
  · rcases hfin with hx | hx <;> omega

theorem write_object_all (n : Nat) : ∀ (b : Nat) (data : List Nat),
    data.length + n < MAX_DATA_SECTION_SIZE →
    write_object (List.replicate n b) data = ([], data ++ List.replicate n b, true) := by
  induction n using Nat.strong_induction_on with
  | _ n ih =>
    intro b data hlt
    by_cases hz : n = 0
    · subst hz
      simp only [List.replicate]
      rw [write_object_nil]
      simp
    · have hne : List.replicate n b ≠ [] := by
        intro h
        apply hz
        simpa using congrArg List.length h
      have hBpos : 0 < DATA_WRITE_BUFFER_SIZE := by norm_num [DATA_WRITE_BUFFER_SIZE]
      have htake : (List.replicate n b).take DATA_WRITE_BUFFER_SIZE =
          List.replicate (min DATA_WRITE_BUFFER_SIZE n) b := List.take_replicate _ _ _
      have hdrop : (List.replicate n b).drop DATA_WRITE_BUFFER_SIZE =
          List.replicate (n - DATA_WRITE_BUFFER_SIZE) b := List.drop_replicate _ _ _
      have hstep : (data ++ (List.replicate n b).take DATA_WRITE_BUFFER_SIZE).length <
          MAX_DATA_SECTION_SIZE := by
        rw [htake]
        simp only [List.length_append, List.length_replicate]
        omega
      rw [write_object_step _ _ hne hstep, htake, hdrop]
      have hrec := ih (n - DATA_WRITE_BUFFER_SIZE) (by omega) b
        (data ++ List.replicate (min DATA_WRITE_BUFFER_SIZE n) b)
        (by simp only [List.length_append, List.length_replicate]; omega)
      rw [hrec]
      have hmin : min DATA_WRITE_BUFFER_SIZE n + (n - DATA_WRITE_BUFFER_SIZE) = n := by
        omega
      rw [List.append_assoc, ← List.replicate_add, hmin]

theorem max_value : MAX_DATA_SECTION_SIZE = 199991808 := by
  norm_num [MAX_DATA_SECTION_SIZE, MIN_DATA_REMAINING_SIZE, DATA_WRITE_BUFFER_SIZE]

def demo_file1 : List Nat := List.replicate (MAX_DATA_SECTION_SIZE - 13) 0

theorem demo_first_pack :
    pack_file demo_file1 0 [] =
      (([] ++ (le_bytes 8 demo_file1.length ++ le_bytes 4 0)) ++ demo_file1, []) := by
  unfold pack_file
  have hall := write_object_all (MAX_DATA_SECTION_SIZE - 13) 0
    ([] ++ (le_bytes 8 demo_file1.length ++ le_bytes 4 0))
    (by simp only [List.nil_append, List.length_append, le_bytes_length, max_value]; omega)
  rw [show List.replicate (MAX_DATA_SECTION_SIZE - 13) 0 = demo_file1 from rfl] at hall
  rw [pack_file_loop_done _ _ (by rw [hall]), hall]

theorem demo_cur_length :
    (pack_file demo_file1 0 []).1.length = MAX_DATA_SECTION_SIZE - 1 := by
  rw [demo_first_pack]
  simp only [List.nil_append, List.length_append, le_bytes_length, demo_file1,
    List.length_replicate, max_value]

theorem pack_file_big_section (cur : List Nat)
    (hclen : cur.length = MAX_DATA_SECTION_SIZE - 1) :
    ((pack_file (List.replicate 8192 0) 0 cur).2.headD []).length = 200000011 := by
  unfold pack_file
  set cur2 := cur ++ (le_bytes 8 (List.replicate 8192 (0 : Nat)).length ++ le_bytes 4 0)
    with hcur2
  have hc2len : cur2.length = MAX_DATA_SECTION_SIZE + 11 := by
    rw [hcur2]
    simp only [List.length_append, le_bytes_length, hclen]
    rw [max_value]
  have hne : List.replicate 8192 (0 : Nat) ≠ [] := by
    intro h
    have hl := congrArg List.length h
    rw [List.length_replicate, List.length_nil] at hl
    exact absurd hl (by norm_num)
  have htake : (List.replicate 8192 (0 : Nat)).take DATA_WRITE_BUFFER_SIZE =
      List.replicate 8192 0 := by
    rw [List.take_replicate]
    norm_num [DATA_WRITE_BUFFER_SIZE]
  have hstop : MAX_DATA_SECTION_SIZE ≤
      (cur2 ++ (List.replicate 8192 (0 : Nat)).take DATA_WRITE_BUFFER_SIZE).length := by
    rw [htake]
    simp only [List.length_append, List.length_replicate, hc2len]
    omega
  have hwo := write_object_stop (List.replicate 8192 (0 : Nat)) cur2 hne hstop
  have hdrop : (List.replicate 8192 (0 : Nat)).drop DATA_WRITE_BUFFER_SIZE = [] := by
    rw [List.drop_replicate]
    norm_num [DATA_WRITE_BUFFER_SIZE]
  have hloop_nil : pack_file_loop
      ((List.replicate 8192 (0 : Nat)).drop DATA_WRITE_BUFFER_SIZE) [] = ([], []) := by
    rw [hdrop]
    rw [pack_file_loop_done _ _ (by rw [write_object_nil])]
    rw [write_object_nil]
  have hfull : pack_file_loop (List.replicate 8192 (0 : Nat)) cur2 =
      ([], [cur2 ++ (List.replicate 8192 (0 : Nat)).take DATA_WRITE_BUFFER_SIZE]) := by
    rw [pack_file_loop_split _ _ (by rw [hwo])]
    rw [hwo]
    dsimp only
    rw [hloop_nil]
  rw [hfull]
  simp only [List.headD_cons]
  rw [htake]
  simp only [List.length_append, List.length_replicate, hc2len]
  rw [max_value]

/-- C7 counterexample: the claim's bound of "limit plus one buffer of slack"
(200000000 bytes) is exceeded. After packing one file of
MAX_DATA_SECTION_SIZE - 13 bytes the open section holds
MAX_DATA_SECTION_SIZE - 1 bytes, still under the limit; packing a second
8192-byte file first writes its 12-byte size/name record unconditionally and
then a full 8192-byte chunk before the limit check runs, closing a section of
200000011 bytes > 200000000. -/
theorem pack_file_limit_counterexample :
    (pack_file demo_file1 0 []).2 = [] ∧
    (pack_file demo_file1 0 []).1.length = MAX_DATA_SECTION_SIZE - 1 ∧
    ((pack_file (List.replicate 8192 0) 0
        (pack_file demo_file1 0 []).1).2.headD []).length = 200000011 ∧
    200000000 < 200000011 :=
  ⟨by rw [demo_first_pack], demo_cur_length,
   pack_file_big_section _ demo_cur_length, by norm_num⟩


theorem pack_file_spec_witness :
    ([9, 9] : List Nat).length < MAX_DATA_SECTION_SIZE ∧
    (((pack_file [1, 2, 3] 5 [9, 9]).2.foldr (· ++ ·) (pack_file [1, 2, 3] 5 [9, 9]).1 =
      [9, 9] ++ (le_bytes 8 ([1, 2, 3] : List Nat).length ++ le_bytes 4 5) ++ [1, 2, 3]) ∧
    (∀ d ∈ (pack_file [1, 2, 3] 5 [9, 9]).2, MAX_DATA_SECTION_SIZE ≤ d.length) ∧
    (∀ d ∈ (pack_file [1, 2, 3] 5 [9, 9]).2, d.length < 200000012) ∧
    (pack_file [1, 2, 3] 5 [9, 9]).1.length < 200000012 ∧
    create_data_section_header.flags &&& FLAG_COMPRESS_XZ ≠ 0 ∧
    create_data_section_header.flags &&& FLAG_CHECK_CRC32 ≠ 0 ∧
    create_data_section_header.btype = DATA_SECTION_TYPE) :=
  ⟨by decide, pack_file_spec [1, 2, 3] [9, 9] 5 (by decide)⟩

end Pkg

namespace Xz

/-- Buffer sizes of the xz codec loops (src/compression/xz.rs lines 60-61). -/
def ENCODER_BUF_SIZE : Nat := 8192

def DECODER_BUF_SIZE : Nat := ENCODER_BUF_SIZE * 2

/-- Return codes of lzma_code that the loops distinguish. -/
inductive LzRet where
  | ok
  | streamEnd
  | memError
  | dataError
  | bufError
  | otherError
  deriving DecidableEq, Repr

/-- The liblzma stream is an external C object; it is modelled as an oracle.
One lzma_code call receives the stream state, the bytes behind
next_in/avail_in, whether the action is LZMA_FINISH, and the free room behind
next_out/avail_out; it returns the new state, the unconsumed input bytes, the
bytes it appended to the output buffer, and a return code. -/
structure LzCodec (σ : Type) where
  code : σ → List Nat → Bool → Nat → σ × List Nat × List Nat × LzRet

/-- do_deflate's loop (src/compression/xz.rs lines 132-163).  The reader is a
byte list returning min(requested, available) bytes per read, as the in-memory
section readers do.  When avail_in is empty and fewer than inflated_size bytes
were read so far, it reads up to ENCODER_BUF_SIZE bytes - the read is NOT
bounded by inflated_size - and pushes every byte read into the checksum tap;
the action becomes LZMA_FINISH only when the running count equals
inflated_size exactly.  After each lzma_code call the output buffer is flushed
to the sink when it is full or the stream ended.  Fuel bounds the iteration
count; none means the fuel ran out before the loop exited.  Returns (result,
checksum tap, sink contents, unread source). -/
def do_deflate_loop {σ : Type} (C : LzCodec σ) (isz : Nat) :
    Nat → σ → List Nat → List Nat → List Nat → Bool → Nat → Nat →
    List Nat → List Nat →
    Option (Except Error Nat) × List Nat × List Nat × List Nat
  | 0, _, src, _, _, _, _, _, tap, out => (none, tap, out, src)
  | fuel+1, st, src, availIn, pending, action, count, csize, tap, out =>
    match (if availIn.isEmpty && decide (count < isz) then
        (src.drop (min ENCODER_BUF_SIZE src.length),
         src.take (min ENCODER_BUF_SIZE src.length),
         count + min ENCODER_BUF_SIZE src.length,
         (if count + min ENCODER_BUF_SIZE src.length = isz then true else action),
         tap ++ src.take (min ENCODER_BUF_SIZE src.length))
      else (src, availIn, count, action, tap)) with
    | (src, availIn, count, action, tap) =>
      match C.code st availIn action (ENCODER_BUF_SIZE - pending.length) with
      | (st, availIn, emitted, ret) =>
        match (if (pending ++ emitted).length = ENCODER_BUF_SIZE ∨
              ret = LzRet.streamEnd then
            (([] : List Nat), csize + (pending ++ emitted).length,
             out ++ (pending ++ emitted))
          else (pending ++ emitted, csize, out)) with
        | (pending, csize, out) =>
          match ret with
          | LzRet.ok =>
              do_deflate_loop C isz fuel st src availIn pending action count csize
                tap out
          | LzRet.streamEnd => (some (Except.ok csize), tap, out, src)
          | _ => (some (Except.error Error.deflateErr), tap, out, src)

/-- do_deflate (src/compression/xz.rs lines 114-165): the loop started on a
fresh stream with empty buffers, LZMA_RUN and zero counters. -/
def do_deflate {σ : Type} (C : LzCodec σ) (st : σ) (fuel : Nat)
    (src : List Nat) (isz : Nat) :
    Option (Except Error Nat) × List Nat × List Nat × List Nat :=
  do_deflate_loop C isz fuel st src [] [] false 0 0 [] []

/-- do_inflate's loop (src/compression/xz.rs lines 184-214).  Unlike deflate,
the read IS bounded: it requests min(ENCODER_BUF_SIZE, remaining) bytes, so at
most deflated_size bytes are ever consumed.  At each flush the decompressed
bytes are pushed to the checksum tap and then written to the sink.  Returns
(result, checksum tap, sink contents, unread source). -/
def do_inflate_loop {σ : Type} (C : LzCodec σ) :
    Nat → σ → List Nat → List Nat → List Nat → Bool → Nat →
    List Nat → List Nat →
    Option (Except Error Unit) × List Nat × List Nat × List Nat
  | 0, _, src, _, _, _, _, tap, out => (none, tap, out, src)
  | fuel+1, st, src, availIn, pending, action, remaining, tap, out =>
    match (if availIn.isEmpty && decide (0 < remaining) then
        (src.drop (min (min ENCODER_BUF_SIZE remaining) src.length),
         src.take (min (min ENCODER_BUF_SIZE remaining) src.length),
         remaining - min (min ENCODER_BUF_SIZE remaining) src.length,
         (if remaining - min (min ENCODER_BUF_SIZE remaining) src.length = 0
          then true else action))
      else (src, availIn, remaining, action)) with
    | (src, availIn, remaining, action) =>
      match C.code st availIn action (DECODER_BUF_SIZE - pending.length) with
      | (st, availIn, emitted, ret) =>
        match (if (pending ++ emitted).length = DECODER_BUF_SIZE ∨
              ret = LzRet.streamEnd then
            (([] : List Nat), tap ++ (pending ++ emitted),
             out ++ (pending ++ emitted))
          else (pending ++ emitted, tap, out)) with
        | (pending, tap, out) =>
          match ret with
          | LzRet.ok =>
              do_inflate_loop C fuel st src availIn pending action remaining
                tap out
          | LzRet.streamEnd => (some (Except.ok ()), tap, out, src)
          | _ => (some (Except.error Error.inflateErr), tap, out, src)

/-- do_inflate (src/compression/xz.rs lines 167-216). -/
def do_inflate {σ : Type} (C : LzCodec σ) (st : σ) (fuel : Nat)
    (src : List Nat) (dsz : Nat) :
    Option (Except Error Unit) × List Nat × List Nat × List Nat :=
  do_inflate_loop C fuel st src [] [] false dsz [] []

/-- An lzma oracle that buffers its input and copies it out verbatim once the
action is LZMA_FINISH; it reports LZMA_STREAM_END only after FINISH, like the
real encoder and decoder. -/
def copyCodec : LzCodec (List Nat) :=
  ⟨fun st availIn action availOut =>
    if action then
      ((st ++ availIn).drop availOut, [], (st ++ availIn).take availOut,
       if (st ++ availIn).length ≤ availOut then LzRet.streamEnd else LzRet.ok)
    else (st ++ availIn, [], [], LzRet.ok)⟩

theorem copyCodec_streamEnd (st a : List Nat) (act : Bool) (o : Nat) :
    (copyCodec.code st a act o).2.2.2 = LzRet.streamEnd → act = true := by
  cases act
  · intro h
    simp [copyCodec] at h
  · intro _
    rfl

theorem do_deflate_loop_ok {σ : Type} (C : LzCodec σ) (isz : Nat)
    (hC : ∀ st a act o, (C.code st a act o).2.2.2 = LzRet.streamEnd →
      act = true) :
    ∀ (fuel : Nat) (st : σ) (src₀ src availIn pending : List Nat)
      (action : Bool) (count csize : Nat) (tap out : List Nat) (cs : Nat),
      tap ++ src = src₀ → tap.length = count → (action = true → count = isz) →
      (do_deflate_loop C isz fuel st src availIn pending action count csize
        tap out).1 = some (Except.ok cs) →
      (do_deflate_loop C isz fuel st src availIn pending action count csize
        tap out).2.1 = src₀.take isz := by
  obtain ⟨f⟩ := C
  dsimp only at hC
  intro fuel
  induction fuel with
  | zero =>
    intro st src₀ src availIn pending action count csize tap out cs h1 h2 h3 hr
    simp [do_deflate_loop] at hr
  | succ n ih =>
    intro st src₀ src availIn pending action count csize tap out cs h1 h2 h3 hr
    rw [do_deflate_loop] at hr ⊢
    cases hread : availIn.isEmpty && decide (count < isz) with
    | true =>
      rw [if_pos rfl]
      rw [hread] at hr
      rw [if_pos rfl] at hr
      dsimp only at hr ⊢
      have hcc : count < isz := by
        have := (Bool.and_eq_true _ _).mp hread
        exact of_decide_eq_true this.2
      have hact : action = false := by
        cases action with
        | false => rfl
        | true => exact absurd (h3 rfl) (by omega)
      rcases hcd : f st (src.take (min ENCODER_BUF_SIZE src.length))
          (if count + min ENCODER_BUF_SIZE src.length = isz then true
            else action)
          (ENCODER_BUF_SIZE - pending.length) with ⟨st2, ai2, em2, ret⟩
      rw [hcd] at hr
      cases ret with
      | ok =>
        dsimp only at hr ⊢
        exact ih st2 src₀ (src.drop (min ENCODER_BUF_SIZE src.length)) ai2 _ _
          _ _ _ _ cs
          (by rw [List.append_assoc, List.take_append_drop]; exact h1)
          (by simp [h2])
          (by intro ha
              rw [hact] at ha
              by_cases hq : count + min ENCODER_BUF_SIZE src.length = isz
              · omega
              · simp [hq] at ha)
          hr
      | streamEnd =>
        have hfin := hC _ _ _ _ (by rw [hcd])
        have hq : count + min ENCODER_BUF_SIZE src.length = isz := by
          by_cases hq : count + min ENCODER_BUF_SIZE src.length = isz
          · exact hq
          · rw [hact] at hfin
            simp [hq] at hfin
        dsimp only at hr ⊢
        rw [← h1, ← hq, ← h2]
        rw [show tap.length + min ENCODER_BUF_SIZE src.length =
            (tap ++ src.take (min ENCODER_BUF_SIZE src.length)).length by
          simp]
        rw [show tap ++ src =
            (tap ++ src.take (min ENCODER_BUF_SIZE src.length)) ++
              src.drop (min ENCODER_BUF_SIZE src.length) by
          rw [List.append_assoc, List.take_append_drop]]
        rw [List.take_left]
      | memError => simp at hr
      | dataError => simp at hr
      | bufError => simp at hr
      | otherError => simp at hr
    | false =>
      rw [if_neg Bool.false_ne_true]
      rw [hread] at hr
      rw [if_neg Bool.false_ne_true] at hr
      dsimp only at hr ⊢
      rcases hcd : f st availIn action (ENCODER_BUF_SIZE - pending.length)
        with ⟨st2, ai2, em2, ret⟩
      rw [hcd] at hr
      cases ret with
      | ok =>
        dsimp only at hr ⊢
        exact ih st2 src₀ src ai2 _ _ _ _ _ _ cs h1 h2 h3 hr
      | streamEnd =>
        have hfin := hC _ _ _ _ (by rw [hcd])
        have hcnt : count = isz := h3 hfin
        dsimp only at hr ⊢
        rw [← h1, ← hcnt, ← h2, List.take_left]
      | memError => simp at hr
      | dataError => simp at hr
      | bufError => simp at hr
      | otherError => simp at hr

theorem do_inflate_loop_ok {σ : Type} (C : LzCodec σ) (dsz : Nat)
    (hC : ∀ st a act o, (C.code st a act o).2.2.2 = LzRet.streamEnd →
      act = true) :
    ∀ (fuel : Nat) (st : σ) (src₀ src availIn pending : List Nat)
      (action : Bool) (remaining : Nat) (tap out : List Nat) (c : Nat),
      src = src₀.drop c → c + remaining = dsz → c ≤ src₀.length →
      (action = true → remaining = 0) → tap = out →
      (do_inflate_loop C fuel st src availIn pending action remaining
        tap out).1 = some (Except.ok ()) →
      (do_inflate_loop C fuel st src availIn pending action remaining
        tap out).2.2.2 = src₀.drop dsz ∧ dsz ≤ src₀.length ∧
      (do_inflate_loop C fuel st src availIn pending action remaining
        tap out).2.1 =
        (do_inflate_loop C fuel st src availIn pending action remaining
          tap out).2.2.1 := by
  obtain ⟨f⟩ := C
  dsimp only at hC
  intro fuel
  induction fuel with
  | zero =>
    intro st src₀ src availIn pending action remaining tap out c h1 h2 h3 h4
      h5 hr
    simp [do_inflate_loop] at hr
  | succ n ih =>
    intro st src₀ src availIn pending action remaining tap out c h1 h2 h3 h4
      h5 hr
    rw [do_inflate_loop] at hr ⊢
    have hslen : src.length = src₀.length - c := by
      rw [h1, List.length_drop]
    have hdl : (List.drop c src₀).length = src₀.length - c := by
      rw [List.length_drop]
    cases hread : availIn.isEmpty && decide (0 < remaining) with
    | true =>
      rw [if_pos rfl]
      rw [hread] at hr
      rw [if_pos rfl] at hr
      dsimp only at hr ⊢
      have hrr : 0 < remaining := by
        have := (Bool.and_eq_true _ _).mp hread
        exact of_decide_eq_true this.2
      have hact : action = false := by
        cases action with
        | false => rfl
        | true => exact absurd (h4 rfl) (by omega)
      have hres : min (min ENCODER_BUF_SIZE remaining) src.length ≤
          remaining := le_trans (min_le_left _ _) (min_le_right _ _)
      have hres2 : min (min ENCODER_BUF_SIZE remaining) src.length ≤
          src.length := min_le_right _ _
      rcases hcd : f st
          (src.take (min (min ENCODER_BUF_SIZE remaining) src.length))
          (if remaining - min (min ENCODER_BUF_SIZE remaining) src.length = 0
            then true else action)
          (DECODER_BUF_SIZE - pending.length) with ⟨st2, ai2, em2, ret⟩
      rw [hcd] at hr
      cases ret with
      | ok =>
        dsimp only at hr ⊢
        refine ih st2 src₀ _ ai2 _ _ _ _ _
          (c + min (min ENCODER_BUF_SIZE remaining) src.length)
          ?_ ?_ ?_ ?_ ?_ hr
        · rw [h1, List.drop_drop, Nat.add_comm]
        · omega
        · omega
        · intro ha
          rw [hact] at ha
          by_cases hq :
            remaining - min (min ENCODER_BUF_SIZE remaining) src.length = 0
          · omega
          · rw [if_neg hq] at ha
            exact absurd ha Bool.false_ne_true
        · by_cases hfl : (pending ++ em2).length = DECODER_BUF_SIZE ∨
              LzRet.ok = LzRet.streamEnd
          · rw [if_pos hfl, h5]
          · rw [if_neg hfl]
            exact h5
      | streamEnd =>
        have hfin := hC _ _ _ _ (by rw [hcd])
        have hq : remaining - min (min ENCODER_BUF_SIZE remaining) src.length
            = 0 := by
          by_cases hq :
            remaining - min (min ENCODER_BUF_SIZE remaining) src.length = 0
          · exact hq
          · rw [hact] at hfin
            rw [if_neg hq] at hfin
            exact absurd hfin Bool.false_ne_true
        dsimp only at hr ⊢
        rw [if_pos (Or.inr rfl)]
        dsimp only
        refine ⟨?_, ?_, by rw [h5]⟩
        · rw [h1, List.drop_drop, Nat.add_comm]
          congr 1
          omega
        · omega
      | memError => simp at hr
      | dataError => simp at hr
      | bufError => simp at hr
      | otherError => simp at hr
    | false =>
      rw [if_neg Bool.false_ne_true]
      rw [hread] at hr
      rw [if_neg Bool.false_ne_true] at hr
      dsimp only at hr ⊢
      rcases hcd : f st availIn action (DECODER_BUF_SIZE - pending.length)
        with ⟨st2, ai2, em2, ret⟩
      rw [hcd] at hr
      cases ret with
      | ok =>
        dsimp only at hr ⊢
        refine ih st2 src₀ src ai2 _ _ _ _ _ c h1 h2 h3 h4 ?_ hr
        by_cases hfl : (pending ++ em2).length = DECODER_BUF_SIZE ∨
            LzRet.ok = LzRet.streamEnd
        · rw [if_pos hfl, h5]
        · rw [if_neg hfl]
          exact h5
      | streamEnd =>
        have hfin := hC _ _ _ _ (by rw [hcd])
        have hrem : remaining = 0 := h4 hfin
        dsimp only at hr ⊢
        rw [if_pos (Or.inr rfl)]
        dsimp only
        refine ⟨?_, ?_, by rw [h5]⟩
        · rw [h1]
          congr 1
          omega
        · omega
      | memError => simp at hr
      | dataError => simp at hr
      | bufError => simp at hr
      | otherError => simp at hr

/-- C5 counterexample: do_deflate's read is not bounded by inflated_size.
With a 100-byte source and inflated_size = 5 the first read grabs all 100
bytes from the reader and pushes all of them into the checksum tap, so the
tap does not hold "exactly inflated_size bytes": the source is fully consumed
and the tap differs from the first 5 bytes. -/
theorem xz_deflate_tap_overread_counterexample :
    (do_deflate copyCodec [] 3 (List.replicate 100 7) 5).2.1 =
      List.replicate 100 7 ∧
    ¬ (do_deflate copyCodec [] 3 (List.replicate 100 7) 5).2.1 =
      (List.replicate 100 7).take 5 ∧
    (do_deflate copyCodec [] 3 (List.replicate 100 7) 5).2.2.2 = [] := by
  refine ⟨by decide, by decide, by decide⟩

/-- C5 (amended): over any lzma oracle that reports LZMA_STREAM_END only
after LZMA_FINISH, whenever do_deflate succeeds its checksum tap holds
exactly the first inflated_size bytes of the source, in order (hence exactly
the source bytes whenever the source holds exactly inflated_size bytes - but
not in general, since reads are not bounded by inflated_size); whenever
do_inflate succeeds it has consumed exactly deflated_size bytes from its
source and its checksum tap equals the bytes written to the sink; thus on a
round trip in which the decompressed output reproduces the original source,
both taps observe the same byte sequence. -/
theorem xz_checksum_tap_spec {σ τ : Type} (C : LzCodec σ) (D : LzCodec τ)
    (hC : ∀ st a act o, (C.code st a act o).2.2.2 = LzRet.streamEnd →
      act = true)
    (hD : ∀ st a act o, (D.code st a act o).2.2.2 = LzRet.streamEnd →
      act = true)
    (st0 : σ) (t0 : τ) (fuelD fuelI : Nat) (src dsrc : List Nat)
    (isz dsz cs : Nat)
    (hdef : (do_deflate C st0 fuelD src isz).1 = some (Except.ok cs))
    (hinf : (do_inflate D t0 fuelI dsrc dsz).1 = some (Except.ok ())) :
    (do_deflate C st0 fuelD src isz).2.1 = src.take isz ∧
    (do_inflate D t0 fuelI dsrc dsz).2.2.2 = dsrc.drop dsz ∧
    dsz ≤ dsrc.length ∧
    (do_inflate D t0 fuelI dsrc dsz).2.1 =
      (do_inflate D t0 fuelI dsrc dsz).2.2.1 ∧
    (src.length = isz →
      (do_inflate D t0 fuelI dsrc dsz).2.2.1 = src →
      (do_inflate D t0 fuelI dsrc dsz).2.1 =
        (do_deflate C st0 fuelD src isz).2.1) := by
  have h1 := do_deflate_loop_ok C isz hC fuelD st0 src src [] [] false 0 0
    [] [] cs (by simp) rfl (by intro h; exact absurd h Bool.false_ne_true)
    hdef
  have h2 := do_inflate_loop_ok D dsz hD fuelI t0 dsrc dsrc [] [] false dsz
    [] [] 0 (by simp) (by omega) (Nat.zero_le _)
    (by intro h; exact absurd h Bool.false_ne_true) rfl hinf
  simp only [do_deflate, do_inflate]
  refine ⟨h1, h2.1, h2.2.1, h2.2.2, ?_⟩
  intro hlen hout
  rw [h2.2.2, hout, h1, ← hlen, List.take_length]

theorem xz_checksum_tap_spec_witness :
    (∀ st a act o, (copyCodec.code st a act o).2.2.2 = LzRet.streamEnd →
      act = true) ∧
    (do_deflate copyCodec [] 2 [1, 2, 3] 3).1 = some (Except.ok 3) ∧
    (do_inflate copyCodec [] 2 [1, 2, 3] 3).1 = some (Except.ok ()) ∧
    ((do_deflate copyCodec [] 2 [1, 2, 3] 3).2.1 =
      ([1, 2, 3] : List Nat).take 3 ∧
    (do_inflate copyCodec [] 2 [1, 2, 3] 3).2.2.2 =
      ([1, 2, 3] : List Nat).drop 3 ∧
    3 ≤ ([1, 2, 3] : List Nat).length ∧
    (do_inflate copyCodec [] 2 [1, 2, 3] 3).2.1 =
      (do_inflate copyCodec [] 2 [1, 2, 3] 3).2.2.1 ∧
    (([1, 2, 3] : List Nat).length = 3 →
      (do_inflate copyCodec [] 2 [1, 2, 3] 3).2.2.1 = [1, 2, 3] →
      (do_inflate copyCodec [] 2 [1, 2, 3] 3).2.1 =
        (do_deflate copyCodec [] 2 [1, 2, 3] 3).2.1)) :=
  ⟨copyCodec_streamEnd, rfl, rfl,
   xz_checksum_tap_spec copyCodec copyCodec copyCodec_streamEnd
     copyCodec_streamEnd [] [] 2 2 [1, 2, 3] [1, 2, 3] 3 3 3 rfl rfl⟩

end Xz

end BpxRs
